import Mathlib

/-!
Verification of the proglog storage engine (`internal/log` of glauco/proglog).

The Go source is shallowly embedded: machine integers become `Nat` (Go's
explicit narrowing casts are kept as `% 2^32` / `% 2^64`, performed inside the
big-endian byte encoders exactly where the source casts), files become byte
lists, and fallible operations return `Except`.  The bufio write buffer of the
store is modelled as always flushed: every read path in the source
(`store.Read`, `store.ReadAt`) flushes the buffer before reading, and
`Close` flushes it before the file is reused, so the buffer is never
observable.  Unsigned 64-bit arithmetic whose operands can be driven to the
wrap by configuration alone — the offset cursor `nextOffset++`, the rollover
base `off + 1` (both reachable in one step from `Segment.InitialOffset =
2^64-1`) and `Truncate`'s caller-chosen threshold `lowest + 1` — is modelled
with `% 2^64`, as are the explicitly cast conversions (`uint32(...)`,
`int64` bit patterns).  The store-file size `size += w`, which only grows by
bytes actually written and so cannot reach `2^64` in any run that fits in a
real address space, stays plain `Nat` addition.
-/

namespace Proglog

/-- A file's contents: a list of bytes (each `< 256` whenever produced by the
encoders below). -/
abbrev Bytes := List Nat

/-- `encoding/binary` big-endian encoding of a `uint64` (8 bytes).
The `% 256` byte extraction truncates the argument modulo `2^64`,
exactly like Go's `uint64` conversion. -/
def u64be (n : Nat) : Bytes :=
  [n / 2^56 % 256, n / 2^48 % 256, n / 2^40 % 256, n / 2^32 % 256,
   n / 2^24 % 256, n / 2^16 % 256, n / 2^8 % 256, n % 256]

/-- `encoding/binary` big-endian encoding of a `uint32` (4 bytes). -/
def u32be (n : Nat) : Bytes :=
  [n / 2^24 % 256, n / 2^16 % 256, n / 2^8 % 256, n % 256]

/-- Big-endian decoding (`enc.Uint64` / `enc.Uint32`) of a byte slice. -/
def beDecode (bs : Bytes) : Nat := bs.foldl (fun a b => a * 256 + b) 0

/-- Go `uint64` subtraction `a - b` (wraps modulo `2^64`). -/
def u64sub (a b : Nat) : Nat := (a + (2^64 - b % 2^64)) % 2^64

/-- The `int64` bit pattern of the literal `-1` (as an unsigned value);
`index.Read(-1)` compares its argument against this. -/
def u64neg1 : Nat := 2^64 - 1

/-- Errors surfaced by the core: `api.ErrOffsetOutOfRange{Offset: off}`
and `io.EOF`. -/
inductive LogErr where
  | offsetOutOfRange (off : Nat)
  | eof
deriving DecidableEq, Repr

/-- Decidable equality of operation results (for concrete evaluation). -/
instance {ε α : Type} [DecidableEq ε] [DecidableEq α] : DecidableEq (Except ε α) := fun
  | .error a, .error b =>
      if h : a = b then .isTrue (by rw [h])
      else .isFalse (by intro hc; cases hc; exact h rfl)
  | .error _, .ok _ => .isFalse (by intro hc; cases hc)
  | .ok _, .error _ => .isFalse (by intro hc; cases hc)
  | .ok a, .ok b =>
      if h : a = b then .isTrue (by rw [h])
      else .isFalse (by intro hc; cases hc; exact h rfl)

/-- `Config.Segment` from `internal/log`: the three recognized options
(`MaxStoreBytes`, `MaxIndexBytes`, `InitialOffset`), flattened. -/
structure Config where
  maxStoreBytes : Nat
  maxIndexBytes : Nat
  initialOffset : Nat
deriving DecidableEq, Repr

/-- `NewLog`'s defaulting of the configuration: zero caps become 1024. -/
def normalizeConfig (c : Config) : Config :=
  { c with
    maxStoreBytes := if c.maxStoreBytes = 0 then 1024 else c.maxStoreBytes,
    maxIndexBytes := if c.maxIndexBytes = 0 then 1024 else c.maxIndexBytes }

/-- `store` (store.go): the data file plus the tracked `size`.  The bufio
buffer is modelled as flushed (see module comment). -/
structure Store where
  data : Bytes
  size : Nat
deriving DecidableEq, Repr

/-- `store.Append`: writes the 8-byte big-endian length prefix followed by the
payload, advances `size` by `lenWidth + len(p)`, and returns
`(store', bytesWritten, pos)` where `pos` is the pre-append `size`.
In-memory buffered writes cannot fail, so no error case arises. -/
def storeAppend (s : Store) (p : Bytes) : Store × Nat × Nat :=
  let pos := s.size
  let w := 8 + p.length
  (⟨s.data ++ (u64be p.length ++ p), s.size + w⟩, w, pos)

/-- `store.Read`: reads the 8-byte length prefix at `pos`, then that many
payload bytes at `pos + 8`.  `File.ReadAt` returns an error when fewer bytes
than requested are available, which is the only failure mode in the model. -/
def storeRead (s : Store) (pos : Nat) : Except LogErr Bytes :=
  if s.data.length < pos + 8 then .error .eof
  else
    let sz := beDecode ((s.data.drop pos).take 8)
    if s.data.length < pos + 8 + sz then .error .eof
    else .ok ((s.data.drop (pos + 8)).take sz)

/-- `index` (index.go): the memory-mapped file contents and the used `size`. -/
structure Index where
  mmap : Bytes
  size : Nat
deriving DecidableEq, Repr

/-- `index.Write`: fails with EOF when `len(mmap) < size + entWidth`;
otherwise splices the 4-byte offset and 8-byte position at byte `size` and
advances `size` by 12.  The `u32be`/`u64be` encoders perform the narrowing
of `off` to `uint32` exactly as `enc.PutUint32` does. -/
def indexWrite (i : Index) (off : Nat) (pos : Nat) : Except LogErr Index :=
  if i.mmap.length < i.size + 12 then .error .eof
  else .ok ⟨i.mmap.take i.size ++ (u32be off ++ u64be pos) ++ i.mmap.drop (i.size + 12),
            i.size + 12⟩

/-- `index.Read`: `inp` is the `int64` argument as a 64-bit pattern.
`-1` selects the last entry via the wrapping computation
`uint32(size/entWidth - 1)`; any other value is narrowed by `uint32(in)`. -/
def indexRead (i : Index) (inp : Nat) : Except LogErr (Nat × Nat) :=
  if i.size = 0 then .error .eof
  else
    let out := if inp = u64neg1
               then (i.size / 12 + (2^64 - 1)) % 2^64 % 2^32
               else inp % 2^32
    let pos := out * 12
    if i.size < pos + 12 then .error .eof
    else .ok (beDecode ((i.mmap.drop pos).take 4),
              beDecode ((i.mmap.drop (pos + 4)).take 8))

/-- `api.Record`: an opaque byte value plus the offset stamped by the core. -/
structure Record where
  value : Bytes
  offset : Nat
deriving DecidableEq, Repr

/-- Modelled from the spec: the external record codec (`proto.Marshal` in the
source, explicitly out of scope for the spec, which requires only that
`decode ∘ encode` round-trips on `value` and `offset`).  Modelled as a concrete
round-tripping codec: the 8-byte big-endian offset followed by the value. -/
def marshalRecord (r : Record) : Bytes := u64be r.offset ++ r.value

/-- Modelled from the spec: inverse of `marshalRecord` (`proto.Unmarshal`). -/
def unmarshalRecord (p : Bytes) : Record := ⟨p.drop 8, beDecode (p.take 8)⟩

/-- `segment` (segment part of log.go): a store and an index under a base
offset, with the `nextOffset` cursor.  The `config` field of the Go struct is
passed explicitly to the operations that consult it. -/
structure Segment where
  store : Store
  index : Index
  baseOffset : Nat
  nextOffset : Nat
deriving DecidableEq, Repr

/-- `segment.Append`: stamps `record.Offset = nextOffset`, marshals, appends
the frame to the store, then writes the index entry
`(uint32(nextOffset-baseOffset), pos)`.  On an index-write EOF the store has
already been extended and the mutated segment is returned together with the
error; `nextOffset` advances only on success (`s.nextOffset++` is a wrapping
`uint64` increment). -/
def segAppend (s : Segment) (r : Record) : Segment × Except LogErr Nat :=
  let cur := s.nextOffset
  let p := marshalRecord { r with offset := cur }
  let (store', _, pos) := storeAppend s.store p
  match indexWrite s.index (u64sub s.nextOffset s.baseOffset) pos with
  | .error e => ({ s with store := store' }, .error e)
  | .ok index' =>
      ({ s with store := store', index := index', nextOffset := (s.nextOffset + 1) % 2^64 },
       .ok cur)

/-- `segment.Read`: looks up `int64(off - baseOffset)` in the index and reads
the store at the returned position.  `unmarshalRecord` is total, matching
`proto.Unmarshal` on well-formed payloads. -/
def segRead (s : Segment) (off : Nat) : Except LogErr Record :=
  match indexRead s.index (u64sub off s.baseOffset) with
  | .error e => .error e
  | .ok (_, pos) =>
      match storeRead s.store pos with
      | .error e => .error e
      | .ok p => .ok (unmarshalRecord p)

/-- `segment.IsMaxed`: `store.size ≥ MaxStoreBytes || index.size ≥ MaxIndexBytes`. -/
def segIsMaxed (c : Config) (s : Segment) : Bool :=
  decide (c.maxStoreBytes ≤ s.store.size) || decide (c.maxIndexBytes ≤ s.index.size)

/-- One segment's pair of files on disk: `<base>.store` and `<base>.index`. -/
structure DiskSeg where
  base : Nat
  storeData : Bytes
  indexData : Bytes
deriving DecidableEq, Repr

/-- Directory lookup of the pair of files named after `base`. -/
def diskFind (disk : List DiskSeg) (base : Nat) : Option DiskSeg :=
  disk.find? (fun d => d.base = base)

/-- `os.Truncate(name, n)`: pad with zero bytes or cut to exactly `n` bytes. -/
def padTo (bs : Bytes) (n : Nat) : Bytes :=
  (bs ++ List.replicate (n - bs.length) 0).take n

/-- `newSegment`: opens (creating if missing) `<base>.store` and
`<base>.index`, sizes the store from `stat`, truncates the index file to
`MaxIndexBytes` and maps it, then recovers `nextOffset` from the last index
entry (`baseOffset` when the index is empty). -/
def newSegmentOnDisk (disk : List DiskSeg) (base : Nat) (c : Config) : Segment :=
  let sData := match diskFind disk base with | some d => d.storeData | none => []
  let iData := match diskFind disk base with | some d => d.indexData | none => []
  let store : Store := ⟨sData, sData.length⟩
  let index : Index := ⟨padTo iData c.maxIndexBytes, iData.length⟩
  let next := match indexRead index u64neg1 with
    | .error _ => base
    | .ok (off, _) => base + off + 1
  ⟨store, index, base, next⟩

/-- `Log` (log.go): the Go struct holds pointers, so segment objects live in a
heap (`heap`, indexed by allocation order) while `segments` and `active`
(the `activeSegment` field) hold identities into it.  This keeps the aliasing
of `activeSegment` with the last list entry observable, exactly as in Go. -/
structure LogSt where
  config : Config
  heap : List Segment
  segments : List Nat
  active : Nat
deriving DecidableEq, Repr

/-- Dereference a segment pointer (total via a default; all identities used by
the operations of reachable states are in range). -/
def heapSeg (l : LogSt) (id : Nat) : Segment :=
  l.heap.getD id ⟨⟨[], 0⟩, ⟨[], 0⟩, 0, 0⟩

/-- The segment `l.activeSegment` points to. -/
def heapActive (l : LogSt) : Segment := heapSeg l l.active

/-- `Log.newSegment`'s bookkeeping: allocate the segment object, append its
identity to the segment list and make it active. -/
def pushSegment (l : LogSt) (s : Segment) : LogSt :=
  { l with heap := l.heap ++ [s], segments := l.segments ++ [l.heap.length],
           active := l.heap.length }

/-- `Log.Append`: delegate to the active segment (whose mutation is visible
through the heap even on error), then roll over to a fresh segment at
`off + 1` (a wrapping `uint64` sum) when the active segment is maxed.
Rollover creates fresh, empty files (no stale files exist at that name in
the runs considered here). -/
def logAppend (l : LogSt) (r : Record) : LogSt × Except LogErr Nat :=
  match l.heap.get? l.active with
  | none => (l, .error .eof)
  | some s =>
      let (s', res) := segAppend s r
      let l' := { l with heap := l.heap.set l.active s' }
      match res with
      | .error e => (l', .error e)
      | .ok off =>
          if segIsMaxed l.config s' then
            (pushSegment l' (newSegmentOnDisk [] ((off + 1) % 2^64) l.config), .ok off)
          else (l', .ok off)

/-- `Log.Read`: linear scan for the first segment with
`baseOffset ≤ off < nextOffset`; `OffsetOutOfRange` when none matches. -/
def logRead (l : LogSt) (off : Nat) : Except LogErr Record :=
  match (l.segments.map (heapSeg l)).find?
      (fun s => decide (s.baseOffset ≤ off) && decide (off < s.nextOffset)) with
  | none => .error (.offsetOutOfRange off)
  | some s => segRead s off

/-- `Log.LowestOffset`: `segments[0].baseOffset` (`none` models the panic on
an empty segment list). -/
def lowestOffset (l : LogSt) : Option Nat :=
  match l.segments.head? with
  | none => none
  | some id => some (heapSeg l id).baseOffset

/-- `Log.HighestOffset`: `segments[last].nextOffset`, returning `0` when that
is `0` and `nextOffset - 1` otherwise. -/
def highestOffset (l : LogSt) : Option Nat :=
  match l.segments.getLast? with
  | none => none
  | some id =>
      let off := (heapSeg l id).nextOffset
      some (if off = 0 then 0 else off - 1)

/-- `Log.Truncate`: drop (and `Remove`) every segment whose
`nextOffset ≤ lowest + 1` (a wrapping `uint64` sum: `Truncate(2^64-1)`
compares against 0), keeping the rest in order.  Only the `segments` list
changes: the heap objects and the `activeSegment` pointer are untouched
(`Remove` closes and deletes files, which the in-memory state does not see). -/
def logTruncate (l : LogSt) (lowest : Nat) : LogSt :=
  { l with segments :=
      l.segments.filter (fun id =>
        !decide ((heapSeg l id).nextOffset ≤ (lowest + 1) % 2^64)) }

/-- `Log.Reader`: `io.MultiReader` over per-segment `originReader`s, each
reading the raw store file from byte 0 — the concatenation of the store
files' bytes in segment order (reads flush the store buffer first). -/
def logReader (l : LogSt) : Bytes :=
  (l.segments.map (fun id => (heapSeg l id).store.data)).flatten

/-- The `i++`-inside-the-loop skip of `Log.setup`: of the sorted offset list
(one entry per file, so each base twice), indices 0, 2, 4, … are used. -/
def skipAlternate : List Nat → List Nat
  | [] => []
  | [x] => [x]
  | x :: _ :: rest => x :: skipAlternate rest

/-- `Log.setup`'s offset scan: every directory entry contributes the `u64`
parsed from its name with the extension stripped (so each `<base>.store` /
`<base>.index` pair contributes `base` twice), the list is sorted ascending,
and pairs are collapsed by the skip-by-two loop. -/
def setupOffsets (disk : List DiskSeg) : List Nat :=
  skipAlternate (List.insertionSort (· ≤ ·) (disk.flatMap (fun d => [d.base, d.base])))

/-- `NewLog` + `Log.setup`: default the config, build one segment per scanned
base offset, and fall back to a single segment at `InitialOffset` when the
directory held none. -/
def newLog (disk : List DiskSeg) (c : Config) : LogSt :=
  let c := normalizeConfig c
  let offs := setupOffsets disk
  let l := offs.foldl (fun acc b => pushSegment acc (newSegmentOnDisk disk b c))
      ⟨c, [], [], 0⟩
  if l.segments.isEmpty then pushSegment l (newSegmentOnDisk disk c.initialOffset c)
  else l

/-- `Log.Close` as seen by the filesystem: each segment flushes its store
(file = `store.data`) and truncates its index file back to the used size
(`index.Close` msyncs the mapping and truncates to `size`). -/
def logCloseDisk (l : LogSt) : List DiskSeg :=
  l.segments.map (fun id =>
    let s := heapSeg l id
    ⟨s.baseOffset, s.store.data, s.index.mmap.take s.index.size⟩)

/-- A sequence of `Log.Append` calls, collecting each call's result. -/
def runAppends (l : LogSt) (rs : List Record) : LogSt × List (Except LogErr Nat) :=
  match rs with
  | [] => (l, [])
  | r :: rest =>
      let (l', res) := logAppend l r
      let (l'', ress) := runAppends l' rest
      (l'', res :: ress)

/-! Derived notions used by the verification. -/

/-- The `k`-th 12-byte entry of an index, decoded. -/
def entryAt (i : Index) (k : Nat) : Nat × Nat :=
  (beDecode ((i.mmap.drop (k * 12)).take 4), beDecode ((i.mmap.drop (k * 12 + 4)).take 8))

/-- The active segment after a failed `segment.Append` (index full): only the
store has grown, by the complete marshalled frame. -/
def segGrown (s : Segment) (r : Record) : Segment :=
  { s with store :=
      ⟨s.store.data ++ (u64be (marshalRecord {r with offset := s.nextOffset}).length
          ++ marshalRecord {r with offset := s.nextOffset}),
       s.store.size + (8 + (marshalRecord {r with offset := s.nextOffset}).length)⟩ }

/-- All results of a call sequence succeeded. -/
def allOk (es : List (Except LogErr Nat)) : Prop :=
  ∀ e ∈ es, e.isOk = true

/-- Total store-file growth of a record sequence: each record contributes an
8-byte frame prefix plus an 8-byte offset and its value (the modelled codec). -/
def growth (rs : List Record) : Nat :=
  (rs.map (fun r => 16 + r.value.length)).sum

/-- Executable check of the per-segment invariant (the existential in
`SegWF.entries` is replaced by the equivalent prefix test on the stored
frame), used to certify concrete states by evaluation. -/
def segWFb (c : Config) (s : Segment) : Bool :=
  decide (s.store.size = s.store.data.length) &&
  decide (s.index.mmap.length = c.maxIndexBytes) &&
  decide (s.baseOffset ≤ s.nextOffset) &&
  decide (s.index.size = 12 * (s.nextOffset - s.baseOffset)) &&
  decide (s.index.size ≤ c.maxIndexBytes) &&
  decide (s.nextOffset < 2^64) &&
  decide (s.store.data.length < 2^64) &&
  decide (s.index.mmap.drop s.index.size
    = List.replicate (c.maxIndexBytes - s.index.size) 0) &&
  (List.range (s.nextOffset - s.baseOffset)).all (fun k =>
    decide ((entryAt s.index k).1 = k) &&
    match storeRead s.store (entryAt s.index k).2 with
    | .error _ => false
    | .ok bs => decide (8 ≤ bs.length) && decide (bs.take 8 = u64be (s.baseOffset + k)))

/-- Executable check of the configuration invariant. -/
def cfgWFb (c : Config) : Bool :=
  decide (c.maxIndexBytes ≤ 12 * 2^32) && decide (0 < c.maxStoreBytes) &&
  decide (0 < c.maxIndexBytes)

/-- Executable check of the whole-log invariant. -/
def logWFb (l : LogSt) : Bool :=
  cfgWFb l.config &&
  decide (l.segments ≠ []) &&
  l.segments.all (fun id => decide (id < l.heap.length)) &&
  decide l.segments.Nodup &&
  decide (l.segments.getLast? = some l.active) &&
  decide (l.segments.Pairwise (fun a b =>
      (heapSeg l a).nextOffset ≤ (heapSeg l b).baseOffset ∧
      (heapSeg l a).baseOffset < (heapSeg l b).baseOffset)) &&
  l.segments.all (fun id => segWFb l.config (heapSeg l id))

/-! ### Byte-codec lemmas -/

theorem u64be_length (n : Nat) : (u64be n).length = 8 := rfl

theorem u32be_length (n : Nat) : (u32be n).length = 4 := rfl

theorem beDecode_u64be (n : Nat) : beDecode (u64be n) = n % 2^64 := by
  simp only [u64be, beDecode, List.foldl]
  omega

theorem beDecode_u32be (n : Nat) : beDecode (u32be n) = n % 2^32 := by
  simp only [u32be, beDecode, List.foldl]
  omega

theorem u64sub_exact (a b : Nat) (hba : b ≤ a) (ha : a < 2^64) :
    u64sub a b = a - b := by
  unfold u64sub
  omega

/-! ### Byte-slice lemmas -/

theorem slice_append_left (a b : Bytes) (pos len : Nat) (h : pos + len ≤ a.length) :
    ((a ++ b).drop pos).take len = (a.drop pos).take len := by
  rw [List.drop_append_of_le_length (by omega)]
  rw [List.take_append_of_le_length (by simp; omega)]

theorem slice_append_right (a b : Bytes) (len : Nat) :
    ((a ++ b).drop a.length).take len = b.take len := by
  rw [List.drop_append_of_le_length (le_refl _), List.drop_length, List.nil_append]

theorem drop_append_exact (a b : Bytes) (n : Nat) (h : a.length = n) :
    (a ++ b).drop n = b := by
  subst h; rw [List.drop_append_of_le_length (le_refl _), List.drop_length, List.nil_append]

/-! ### Store lemmas -/

/-- Reading back the frame just appended at the end of the store. -/
theorem storeRead_append_frame (d p : Bytes) (sz : Nat) (hp : p.length < 2^64) :
    storeRead ⟨d ++ (u64be p.length ++ p), sz⟩ d.length = .ok p := by
  unfold storeRead
  dsimp only
  have hlen : (d ++ (u64be p.length ++ p)).length = d.length + 8 + p.length := by
    simp [u64be_length]; omega
  rw [if_neg (by omega)]
  have hslice : (((d ++ (u64be p.length ++ p)).drop d.length).take 8) = u64be p.length := by
    rw [drop_append_exact _ _ _ rfl, List.take_append_of_le_length (by simp [u64be_length]),
      List.take_of_length_le (by simp [u64be_length])]
  rw [hslice, beDecode_u64be, Nat.mod_eq_of_lt hp]
  rw [if_neg (by omega)]
  have : (d ++ (u64be p.length ++ p)).drop (d.length + 8) = p := by
    rw [show d ++ (u64be p.length ++ p) = (d ++ u64be p.length) ++ p by simp]
    exact drop_append_exact _ _ _ (by simp [u64be_length])
  rw [this, List.take_of_length_le (le_refl _)]

/-- A successful positional read is unaffected by bytes appended later. -/
theorem storeRead_mono (d extra : Bytes) (sz sz' pos : Nat) (v : Bytes)
    (h : storeRead ⟨d, sz⟩ pos = .ok v) :
    storeRead ⟨d ++ extra, sz'⟩ pos = .ok v := by
  unfold storeRead at h ⊢
  dsimp only at h ⊢
  by_cases h1 : d.length < pos + 8
  · rw [if_pos h1] at h; exact absurd h (by simp)
  · rw [if_neg h1] at h
    rw [if_neg (by simp; omega)]
    rw [slice_append_left _ _ _ _ (by omega)]
    by_cases h2 : d.length < pos + 8 + beDecode ((d.drop pos).take 8)
    · rw [if_pos h2] at h; exact absurd h (by simp)
    · rw [if_neg h2] at h
      rw [if_neg (by simp; omega)]
      rw [slice_append_left _ _ _ _ (by omega)]
      exact h

/-! ### Index entry lemmas -/

theorem indexWrite_ok (i : Index) (off pos : Nat) (h : i.size + 12 ≤ i.mmap.length) :
    indexWrite i off pos =
      .ok ⟨i.mmap.take i.size ++ (u32be off ++ u64be pos) ++ i.mmap.drop (i.size + 12),
           i.size + 12⟩ := by
  unfold indexWrite
  rw [if_neg (by omega)]

theorem indexWrite_eof (i : Index) (off pos : Nat) (h : i.mmap.length < i.size + 12) :
    indexWrite i off pos = .error .eof := by
  unfold indexWrite
  rw [if_pos h]

theorem indexWrite_mmap_length (i i' : Index) (off pos : Nat)
    (hle : i.size + 12 ≤ i.mmap.length)
    (h : indexWrite i off pos = .ok i') :
    i'.mmap.length = i.mmap.length ∧ i'.size = i.size + 12 := by
  rw [indexWrite_ok i off pos hle] at h
  cases h
  constructor
  · simp [u32be_length, u64be_length]; omega
  · rfl

theorem indexWrite_tail (i i' : Index) (off pos : Nat)
    (hle : i.size + 12 ≤ i.mmap.length)
    (h : indexWrite i off pos = .ok i') :
    i'.mmap.drop (i.size + 12) = i.mmap.drop (i.size + 12) := by
  rw [indexWrite_ok i off pos hle] at h
  cases h
  show ((i.mmap.take i.size ++ (u32be off ++ u64be pos)) ++ i.mmap.drop (i.size + 12)).drop
      (i.size + 12) = _
  exact drop_append_exact _ _ _ (by simp [u32be_length, u64be_length]; omega)

/-- Entries strictly below the write position are untouched. -/
theorem entryAt_indexWrite_lt (i i' : Index) (off pos k : Nat)
    (hle : i.size + 12 ≤ i.mmap.length)
    (hk : k * 12 + 12 ≤ i.size)
    (h : indexWrite i off pos = .ok i') :
    entryAt i' k = entryAt i k := by
  rw [indexWrite_ok i off pos hle] at h
  cases h
  unfold entryAt
  dsimp only
  have htk : (i.mmap.take i.size).length = i.size := by simp; omega
  have e1 : ∀ st len : Nat, st + len ≤ i.size →
      (((i.mmap.take i.size ++ (u32be off ++ u64be pos) ++ i.mmap.drop (i.size + 12)).drop
        st).take len) = ((i.mmap.drop st).take len) := by
    intro st len hst
    rw [show i.mmap.take i.size ++ (u32be off ++ u64be pos) ++ i.mmap.drop (i.size + 12)
        = i.mmap.take i.size ++ ((u32be off ++ u64be pos) ++ i.mmap.drop (i.size + 12)) by simp]
    rw [slice_append_left _ _ _ _ (by omega)]
    rw [List.drop_take, List.take_take]
    congr 1
    omega
  rw [Prod.mk.injEq]
  constructor
  · rw [e1 _ _ (by omega)]
  · rw [e1 _ _ (by omega)]

/-- The freshly written entry decodes to the written (narrowed) pair. -/
theorem entryAt_indexWrite_new (i i' : Index) (off pos k : Nat)
    (hle : i.size + 12 ≤ i.mmap.length)
    (hk : k * 12 = i.size)
    (h : indexWrite i off pos = .ok i') :
    entryAt i' k = (off % 2^32, pos % 2^64) := by
  rw [indexWrite_ok i off pos hle] at h
  cases h
  unfold entryAt
  dsimp only
  have htk : (i.mmap.take i.size).length = i.size := by simp; omega
  have hd : (i.mmap.take i.size ++ (u32be off ++ u64be pos) ++ i.mmap.drop (i.size + 12)).drop
      (k * 12) = (u32be off ++ u64be pos) ++ i.mmap.drop (i.size + 12) := by
    rw [show i.mmap.take i.size ++ (u32be off ++ u64be pos) ++ i.mmap.drop (i.size + 12)
        = i.mmap.take i.size ++ ((u32be off ++ u64be pos) ++ i.mmap.drop (i.size + 12)) by simp]
    exact drop_append_exact _ _ _ (by omega)
  rw [Prod.mk.injEq]
  constructor
  · show beDecode _ = _
    rw [hd]
    rw [show (u32be off ++ u64be pos) ++ i.mmap.drop (i.size + 12)
        = u32be off ++ (u64be pos ++ i.mmap.drop (i.size + 12)) by simp]
    rw [List.take_append_of_le_length (by simp [u32be_length]),
      List.take_of_length_le (by simp [u32be_length])]
    exact beDecode_u32be off
  · show beDecode _ = _
    have hd4 : (i.mmap.take i.size ++ (u32be off ++ u64be pos) ++ i.mmap.drop (i.size + 12)).drop
        (k * 12 + 4) = u64be pos ++ i.mmap.drop (i.size + 12) := by
      rw [show i.mmap.take i.size ++ (u32be off ++ u64be pos) ++ i.mmap.drop (i.size + 12)
          = (i.mmap.take i.size ++ u32be off) ++ (u64be pos ++ i.mmap.drop (i.size + 12)) by simp]
      exact drop_append_exact _ _ _ (by simp [u32be_length]; omega)
    rw [hd4, List.take_append_of_le_length (by simp [u64be_length]),
      List.take_of_length_le (by simp [u64be_length])]
    exact beDecode_u64be pos

/-- `index.Read` of an in-range relative offset returns the decoded entry. -/
theorem indexRead_entry (i : Index) (cnt k : Nat) (hsz : i.size = 12 * cnt)
    (hk : k < cnt) (h32 : k < 2^32) :
    indexRead i k = .ok (entryAt i k) := by
  unfold indexRead
  rw [if_neg (by omega)]
  have hne : ¬ (k = u64neg1) := by unfold u64neg1; omega
  simp only [hne, if_false]
  rw [Nat.mod_eq_of_lt h32]
  rw [if_neg (by omega)]
  rfl

/-- `index.Read(-1)` of a non-empty aligned index returns the last entry. -/
theorem indexRead_last (i : Index) (cnt : Nat) (hsz : i.size = 12 * cnt)
    (h0 : 0 < cnt) (h32 : cnt ≤ 2^32) :
    indexRead i u64neg1 = .ok (entryAt i (cnt - 1)) := by
  unfold indexRead
  rw [if_neg (by omega)]
  rw [if_pos rfl]
  have h12 : i.size / 12 = cnt := by omega
  have : (i.size / 12 + (2^64 - 1)) % 2^64 % 2^32 = cnt - 1 := by
    rw [h12]
    omega
  rw [this]
  rw [if_neg (by omega)]
  rfl

/-- `index.Read` on an empty index fails with EOF. -/
theorem indexRead_empty (i : Index) (inp : Nat) (h : i.size = 0) :
    indexRead i inp = .error .eof := by
  unfold indexRead
  rw [if_pos h]

/-! ### Codec round-trip -/

theorem marshalRecord_length (r : Record) :
    (marshalRecord r).length = 8 + r.value.length := by
  simp [marshalRecord, u64be_length]

theorem unmarshal_marshal (r : Record) (h : r.offset < 2^64) :
    unmarshalRecord (marshalRecord r) = r := by
  unfold unmarshalRecord marshalRecord
  have hd : (u64be r.offset ++ r.value).drop 8 = r.value :=
    drop_append_exact _ _ _ (u64be_length r.offset)
  have ht : (u64be r.offset ++ r.value).take 8 = u64be r.offset := by
    rw [List.take_append_of_le_length (by simp [u64be_length]),
      List.take_of_length_le (by simp [u64be_length])]
  rw [hd, ht, beDecode_u64be, Nat.mod_eq_of_lt h]

/-! ### Segment well-formedness

Invariants of every segment of a reachable log state: the tracked sizes agree
with the file contents, the index is a dense aligned array whose `k`-th entry
carries relative offset `k` and points at a well-formed frame holding the
record appended at absolute offset `baseOffset + k`, and all quantities fit in
their 64-bit machine words. -/

structure SegWF (c : Config) (s : Segment) : Prop where
  sizeEq   : s.store.size = s.store.data.length
  mmapLen  : s.index.mmap.length = c.maxIndexBytes
  baseLe   : s.baseOffset ≤ s.nextOffset
  idxSize  : s.index.size = 12 * (s.nextOffset - s.baseOffset)
  idxLe    : s.index.size ≤ c.maxIndexBytes
  off64    : s.nextOffset < 2^64
  data64   : s.store.data.length < 2^64
  tailZero : s.index.mmap.drop s.index.size
             = List.replicate (c.maxIndexBytes - s.index.size) 0
  entries  : ∀ k, k < s.nextOffset - s.baseOffset →
      (entryAt s.index k).1 = k ∧
      ∃ v : Bytes, storeRead s.store (entryAt s.index k).2
        = .ok (marshalRecord ⟨v, s.baseOffset + k⟩)

/-- The entry count of a well-formed segment fits `uint32` when
`MaxIndexBytes` is at most `12 * 2^32` (it always is in practice). -/
theorem SegWF.cnt32 {c : Config} {s : Segment} (h : SegWF c s)
    (hmib : c.maxIndexBytes ≤ 12 * 2^32) :
    s.nextOffset - s.baseOffset ≤ 2^32 := by
  have h1 := h.idxLe
  rw [h.idxSize] at h1
  omega

/-! ### `segment.Append` characterization -/

/-- Successful append: the frame goes to the store, the entry
`(uint32(nextOffset-baseOffset), pos)` to the index, `nextOffset` advances,
and the pre-increment offset is returned. -/
theorem segAppend_ok (s : Segment) (r : Record)
    (h : s.index.size + 12 ≤ s.index.mmap.length) :
    segAppend s r =
      ({ s with
          store := ⟨s.store.data ++ (u64be (marshalRecord {r with offset := s.nextOffset}).length
                      ++ marshalRecord {r with offset := s.nextOffset}),
                    s.store.size + (8 + (marshalRecord {r with offset := s.nextOffset}).length)⟩,
          index := ⟨s.index.mmap.take s.index.size
                      ++ (u32be (u64sub s.nextOffset s.baseOffset) ++ u64be s.store.size)
                      ++ s.index.mmap.drop (s.index.size + 12),
                    s.index.size + 12⟩,
          nextOffset := (s.nextOffset + 1) % 2^64 }, .ok s.nextOffset) := by
  unfold segAppend storeAppend
  dsimp only
  rw [indexWrite_ok _ _ _ h]

/-- Failed append (index full): the error is EOF, the store has already been
extended by the whole frame and `size` advanced by `lenWidth + len(p)`, while
the index and `nextOffset` are unchanged. -/
theorem segAppend_eof (s : Segment) (r : Record)
    (h : s.index.mmap.length < s.index.size + 12) :
    segAppend s r = (segGrown s r, .error .eof) := by
  unfold segAppend storeAppend segGrown
  dsimp only
  rw [indexWrite_eof _ _ _ h]

theorem ite_err_eof {α : Type} (c : Prop) [Decidable c] (x : α) (e : LogErr)
    (h : (if c then (Except.error LogErr.eof : Except LogErr α) else .ok x) = .error e) :
    e = .eof := by
  split at h
  · cases h; rfl
  · cases h

/-- `index.Read` can only fail with EOF. -/
theorem indexRead_err_eof (i : Index) (inp : Nat) (e : LogErr)
    (h : indexRead i inp = .error e) : e = .eof := by
  unfold indexRead at h
  split at h
  · cases h; rfl
  · exact ite_err_eof _ _ _ h

/-- `store.Read` can only fail with EOF. -/
theorem storeRead_err_eof (s : Store) (pos : Nat) (e : LogErr)
    (h : storeRead s pos = .error e) : e = .eof := by
  unfold storeRead at h
  split at h
  · cases h; rfl
  · exact ite_err_eof _ _ _ h

/-- `segment.Read` surfaces only EOF errors, never `OffsetOutOfRange`. -/
theorem segRead_err_eof (s : Segment) (off : Nat) (e : LogErr)
    (h : segRead s off = .error e) : e = .eof := by
  unfold segRead at h
  rcases h1 : indexRead s.index (u64sub off s.baseOffset) with e1 | ⟨o1, p1⟩
  · rw [h1] at h
    dsimp only at h
    cases h
    exact indexRead_err_eof _ _ _ h1
  · rw [h1] at h
    dsimp only at h
    rcases h2 : storeRead s.store p1 with e2 | v2
    · rw [h2] at h
      dsimp only at h
      cases h
      exact storeRead_err_eof _ _ _ h2
    · rw [h2] at h
      dsimp only at h
      cases h

/-- Reading back the record just appended. -/
theorem segAppend_read_back (c : Config) (s : Segment) (r : Record)
    (hwf : SegWF c s) (hmib : c.maxIndexBytes ≤ 12 * 2^32)
    (hroom : s.index.size + 12 ≤ s.index.mmap.length)
    (hv : r.value.length + 8 < 2^64) :
    segRead (segAppend s r).1 s.nextOffset = .ok ⟨r.value, s.nextOffset⟩ := by
  have hcnt32 : s.nextOffset - s.baseOffset < 2^32 := by
    have h1 := hwf.idxSize
    have h2 := hwf.mmapLen
    omega
  have hsub : u64sub s.nextOffset s.baseOffset = s.nextOffset - s.baseOffset :=
    u64sub_exact _ _ hwf.baseLe hwf.off64
  rw [segAppend_ok s r hroom, hsub]
  unfold segRead
  dsimp only
  rw [hsub]
  have hwr : indexWrite s.index (s.nextOffset - s.baseOffset) s.store.size
      = .ok ⟨s.index.mmap.take s.index.size
              ++ (u32be (s.nextOffset - s.baseOffset) ++ u64be s.store.size)
              ++ s.index.mmap.drop (s.index.size + 12), s.index.size + 12⟩ :=
    indexWrite_ok _ _ _ hroom
  have hnew := entryAt_indexWrite_new _ _ _ _ (s.nextOffset - s.baseOffset) hroom
    (by rw [hwf.idxSize]; omega) hwr
  rw [indexRead_entry _ (s.nextOffset - s.baseOffset + 1) _
    (by dsimp only; rw [hwf.idxSize]; omega) (by omega) hcnt32]
  rw [hnew, Nat.mod_eq_of_lt hcnt32,
    Nat.mod_eq_of_lt (by rw [hwf.sizeEq]; exact hwf.data64), hwf.sizeEq]
  dsimp only
  rw [storeRead_append_frame _ _ _ (by rw [marshalRecord_length]; dsimp only; omega)]
  dsimp only
  rw [unmarshal_marshal _ hwf.off64]

/-- Reading a covered offset of a well-formed segment succeeds with a record
stamped with that offset. -/
theorem segRead_entry_ok (c : Config) (s : Segment) (off : Nat)
    (hwf : SegWF c s) (hmib : c.maxIndexBytes ≤ 12 * 2^32)
    (hlo : s.baseOffset ≤ off) (hhi : off < s.nextOffset) :
    ∃ v : Bytes, segRead s off = .ok ⟨v, off⟩ := by
  have hk : off - s.baseOffset < s.nextOffset - s.baseOffset := by omega
  have hk32 : off - s.baseOffset < 2^32 := by
    have h1 := hwf.idxSize
    have h2 := hwf.idxLe
    omega
  have hsub : u64sub off s.baseOffset = off - s.baseOffset :=
    u64sub_exact _ _ hlo (lt_of_lt_of_le hhi (le_of_lt hwf.off64))
  obtain ⟨hrel, v, hst⟩ := hwf.entries (off - s.baseOffset) hk
  refine ⟨v, ?_⟩
  unfold segRead
  rw [hsub, indexRead_entry _ (s.nextOffset - s.baseOffset) _ hwf.idxSize hk hk32]
  dsimp only
  rw [hst]
  dsimp only
  rw [unmarshal_marshal _ (by have h3 := hwf.off64; dsimp only; omega)]
  have : s.baseOffset + (off - s.baseOffset) = off := by omega
  rw [this]

/-- Reads of covered offsets are unaffected by growth of the store file
(e.g. by the orphan frame of a failed append). -/
theorem segRead_store_grow (c : Config) (s : Segment) (extra : Bytes) (sz' : Nat)
    (off : Nat) (hwf : SegWF c s) (hmib : c.maxIndexBytes ≤ 12 * 2^32)
    (hlo : s.baseOffset ≤ off) (hhi : off < s.nextOffset) :
    segRead { s with store := ⟨s.store.data ++ extra, sz'⟩ } off = segRead s off := by
  have hk : off - s.baseOffset < s.nextOffset - s.baseOffset := by omega
  have hk32 : off - s.baseOffset < 2^32 := by
    have h1 := hwf.idxSize
    have h2 := hwf.idxLe
    omega
  have hsub : u64sub off s.baseOffset = off - s.baseOffset :=
    u64sub_exact _ _ hlo (lt_of_lt_of_le hhi (le_of_lt hwf.off64))
  obtain ⟨hrel, v, hst⟩ := hwf.entries (off - s.baseOffset) hk
  unfold segRead
  dsimp only
  rw [hsub, indexRead_entry _ (s.nextOffset - s.baseOffset) _ hwf.idxSize hk hk32]
  dsimp only
  rw [hst, storeRead_mono _ _ _ _ _ _ hst]

/-- `segment.Append` preserves well-formedness on success (given that the new
frame and offset still fit their 64-bit words). -/
theorem segAppend_wf (c : Config) (s : Segment) (r : Record)
    (hwf : SegWF c s) (hmib : c.maxIndexBytes ≤ 12 * 2^32)
    (hroom : s.index.size + 12 ≤ s.index.mmap.length)
    (hd : s.store.data.length + 16 + r.value.length < 2^64)
    (hn : s.nextOffset + 1 < 2^64) :
    SegWF c (segAppend s r).1 := by
  have hcnt32 : s.nextOffset - s.baseOffset < 2^32 := by
    have h1 := hwf.idxSize
    have h2 := hwf.mmapLen
    omega
  have hsub : u64sub s.nextOffset s.baseOffset = s.nextOffset - s.baseOffset :=
    u64sub_exact _ _ hwf.baseLe hwf.off64
  have hplen : (marshalRecord {r with offset := s.nextOffset}).length = 8 + r.value.length :=
    marshalRecord_length _
  have hwr : indexWrite s.index (s.nextOffset - s.baseOffset) s.store.size
      = .ok ⟨s.index.mmap.take s.index.size
              ++ (u32be (s.nextOffset - s.baseOffset) ++ u64be s.store.size)
              ++ s.index.mmap.drop (s.index.size + 12), s.index.size + 12⟩ :=
    indexWrite_ok _ _ _ hroom
  rw [segAppend_ok s r hroom, hsub, Nat.mod_eq_of_lt hn]
  constructor
  case sizeEq => dsimp only; rw [hwf.sizeEq]; simp [u64be_length]
  case mmapLen =>
    dsimp only
    have := hwf.mmapLen
    simp [u32be_length, u64be_length]
    omega
  case baseLe => dsimp only; have := hwf.baseLe; omega
  case idxSize =>
    dsimp only
    have h1 := hwf.idxSize
    have h2 := hwf.baseLe
    omega
  case idxLe =>
    dsimp only
    have := hwf.mmapLen
    omega
  case off64 => exact hn
  case data64 => dsimp only; simp [u64be_length, hplen]; omega
  case tailZero =>
    dsimp only
    have hdrop : (s.index.mmap.take s.index.size
        ++ (u32be (s.nextOffset - s.baseOffset) ++ u64be s.store.size)
        ++ s.index.mmap.drop (s.index.size + 12)).drop (s.index.size + 12)
        = s.index.mmap.drop (s.index.size + 12) := by
      apply drop_append_exact
      simp [u32be_length, u64be_length]
      omega
    rw [hdrop]
    have h12 : s.index.mmap.drop (s.index.size + 12)
        = (s.index.mmap.drop s.index.size).drop 12 := by
      rw [List.drop_drop]
    rw [h12, hwf.tailZero, List.drop_replicate]
    congr 1
  case entries =>
    dsimp only
    intro k hk
    have hcnt : s.nextOffset - s.baseOffset = s.nextOffset + 1 - s.baseOffset - 1 := by
      have := hwf.baseLe; omega
    by_cases hlt : k < s.nextOffset - s.baseOffset
    · have hpres := entryAt_indexWrite_lt _ _ _ _ k hroom
        (by rw [hwf.idxSize]; omega) hwr
      obtain ⟨hrel, v, hst⟩ := hwf.entries k hlt
      refine ⟨by rw [hpres]; exact hrel, v, ?_⟩
      rw [hpres]
      exact storeRead_mono _ _ _ _ _ _ hst
    · have hke : k = s.nextOffset - s.baseOffset := by omega
      subst hke
      have hnew := entryAt_indexWrite_new _ _ _ _ (s.nextOffset - s.baseOffset) hroom
        (by rw [hwf.idxSize]; omega) hwr
      rw [hnew]
      refine ⟨by dsimp only; rw [Nat.mod_eq_of_lt hcnt32], r.value, ?_⟩
      dsimp only
      rw [Nat.mod_eq_of_lt (by rw [hwf.sizeEq]; exact hwf.data64), hwf.sizeEq]
      have hoff : s.baseOffset + (s.nextOffset - s.baseOffset) = s.nextOffset := by
        have := hwf.baseLe; omega
      rw [hoff]
      exact storeRead_append_frame _ _ _ (by rw [hplen]; omega)

/-- A freshly created segment (empty files) in explicit form. -/
theorem newSegmentOnDisk_empty (b : Nat) (c : Config) :
    newSegmentOnDisk [] b c = ⟨⟨[], 0⟩, ⟨List.replicate c.maxIndexBytes 0, 0⟩, b, b⟩ := by
  unfold newSegmentOnDisk diskFind padTo
  dsimp only [List.find?_nil]
  rw [indexRead_empty _ _ rfl]
  dsimp only
  congr 1
  simp

/-- A freshly created segment is well-formed. -/
theorem segWF_fresh (c : Config) (b : Nat) (hb : b < 2^64) :
    SegWF c (newSegmentOnDisk [] b c) := by
  rw [newSegmentOnDisk_empty]
  constructor
  case sizeEq => rfl
  case mmapLen => simp
  case baseLe => exact le_refl b
  case idxSize => simp
  case idxLe => simp
  case off64 => exact hb
  case data64 => simp
  case tailZero => simp
  case entries => intro k hk; simp at hk

/-! ### Generic list helpers for the segment heap -/

theorem getD_set_eq {α : Type} : ∀ (xs : List α) (i : Nat) (x d : α),
    i < xs.length → (xs.set i x).getD i d = x
  | [], i, x, d, h => by simp at h
  | a :: as, 0, x, d, _ => rfl
  | a :: as, i + 1, x, d, h => by
      show (as.set i x).getD i d = x
      exact getD_set_eq as i x d (by simp at h; omega)

theorem getD_set_ne {α : Type} : ∀ (xs : List α) (i j : Nat) (x d : α),
    i ≠ j → (xs.set i x).getD j d = xs.getD j d
  | [], i, j, x, d, _ => rfl
  | a :: as, 0, 0, x, d, h => absurd rfl h
  | a :: as, 0, j + 1, x, d, _ => rfl
  | a :: as, i + 1, 0, x, d, _ => rfl
  | a :: as, i + 1, j + 1, x, d, h => by
      show (as.set i x).getD j d = as.getD j d
      exact getD_set_ne as i j x d (by omega)

theorem getD_append_left {α : Type} : ∀ (xs ys : List α) (i : Nat) (d : α),
    i < xs.length → (xs ++ ys).getD i d = xs.getD i d
  | [], ys, i, d, h => by simp at h
  | a :: as, ys, 0, d, _ => rfl
  | a :: as, ys, i + 1, d, h => by
      show (as ++ ys).getD i d = as.getD i d
      exact getD_append_left as ys i d (by simp at h; omega)

theorem getD_append_len {α : Type} : ∀ (xs : List α) (x d : α),
    (xs ++ [x]).getD xs.length d = x
  | [], x, d => rfl
  | a :: as, x, d => getD_append_len as x d

theorem find?_append_none {α : Type} : ∀ (xs ys : List α) (p : α → Bool),
    (∀ x ∈ xs, p x = false) → (xs ++ ys).find? p = ys.find? p
  | [], ys, p, _ => rfl
  | a :: as, ys, p, h => by
      rw [List.cons_append, List.find?_cons_of_neg _ (by simp [h a (by simp)])]
      exact find?_append_none as ys p (fun x hx => h x (by simp [hx]))

/-! ### Log well-formedness -/

/-- Configuration sanity: positive caps (guaranteed by `NewLog`'s defaulting
for the zero cases) and an index cap that keeps relative offsets inside
`uint32` (`12 * 2^32` is 48 GiB of index — far beyond any real setting). -/
structure CfgWF (c : Config) : Prop where
  mib32 : c.maxIndexBytes ≤ 12 * 2^32
  msbPos : 0 < c.maxStoreBytes
  mibPos : 0 < c.maxIndexBytes

/-- Invariants of a reachable log state (before any `Truncate` that empties
the list): valid, duplicate-free segment identities, the `activeSegment`
pointer aliasing the last list entry, disjoint ordered coverage, and
per-segment well-formedness. -/
structure LogWF (l : LogSt) : Prop where
  cfg : CfgWF l.config
  ne : l.segments ≠ []
  idsLt : ∀ id ∈ l.segments, id < l.heap.length
  idsNodup : l.segments.Nodup
  activeLast : l.segments.getLast? = some l.active
  ordered : l.segments.Pairwise (fun a b =>
      (heapSeg l a).nextOffset ≤ (heapSeg l b).baseOffset ∧
      (heapSeg l a).baseOffset < (heapSeg l b).baseOffset)
  segsWF : ∀ id ∈ l.segments, SegWF l.config (heapSeg l id)

theorem LogWF.activeMem {l : LogSt} (h : LogWF l) : l.active ∈ l.segments :=
  List.mem_of_mem_getLast? h.activeLast

theorem LogWF.activeLt {l : LogSt} (h : LogWF l) : l.active < l.heap.length :=
  h.idsLt _ h.activeMem

theorem LogWF.activeWF {l : LogSt} (h : LogWF l) : SegWF l.config (heapActive l) :=
  h.segsWF _ h.activeMem

theorem segWFb_sound (c : Config) (s : Segment) (h : segWFb c s = true) :
    SegWF c s := by
  unfold segWFb at h
  simp only [Bool.and_eq_true, decide_eq_true_eq, List.all_eq_true] at h
  obtain ⟨⟨⟨⟨⟨⟨⟨⟨h1, h2⟩, h3⟩, h4⟩, h5⟩, h6⟩, h7⟩, h8⟩, h9⟩ := h
  refine ⟨h1, h2, h3, h4, h5, h6, h7, h8, ?_⟩
  intro k hk
  have hmem : k ∈ List.range (s.nextOffset - s.baseOffset) := List.mem_range.mpr hk
  have h10 := h9 k hmem
  rcases hsr : storeRead s.store (entryAt s.index k).2 with e | bs
  · rw [hsr] at h10
    simp at h10
  · rw [hsr] at h10
    simp only [Bool.and_eq_true, decide_eq_true_eq] at h10
    obtain ⟨hent, hlen, htake⟩ := h10
    refine ⟨hent, bs.drop 8, ?_⟩
    have hbs : marshalRecord ⟨bs.drop 8, s.baseOffset + k⟩ = bs := by
      unfold marshalRecord
      dsimp only
      rw [← htake]
      exact List.take_append_drop 8 bs
    rw [hbs]

theorem logWFb_sound (l : LogSt) (h : logWFb l = true) : LogWF l := by
  unfold logWFb at h
  simp only [Bool.and_eq_true, decide_eq_true_eq, List.all_eq_true] at h
  obtain ⟨⟨⟨⟨⟨⟨hc, hne⟩, hlt⟩, hnd⟩, hal⟩, hord⟩, hwf⟩ := h
  unfold cfgWFb at hc
  simp only [Bool.and_eq_true, decide_eq_true_eq] at hc
  refine ⟨⟨hc.1.1, hc.1.2, hc.2⟩, hne, hlt, hnd, hal, hord, ?_⟩
  intro id hid
  exact segWFb_sound _ _ (hwf id hid)

theorem heap_get?_active (l : LogSt) (hact : l.active < l.heap.length) :
    l.heap.get? l.active = some (heapActive l) := by
  unfold heapActive heapSeg
  rw [List.get?_eq_getElem?, List.getElem?_eq_getElem hact, List.getD_eq_getElem _ _ hact]

/-! ### `Log.Append` characterization -/

/-- `Log.Append` when the active segment's index has room: the record lands in
the active segment, the assigned offset is its (pre-increment) `nextOffset`,
and a rollover segment at `(off + 1) % 2^64` is pushed exactly when the
updated active segment is maxed. -/
theorem logAppend_of_room (l : LogSt) (r : Record)
    (hact : l.active < l.heap.length)
    (hroom : (heapActive l).index.size + 12 ≤ (heapActive l).index.mmap.length) :
    logAppend l r =
      (if segIsMaxed l.config (segAppend (heapActive l) r).1 then
         (pushSegment { l with heap := l.heap.set l.active (segAppend (heapActive l) r).1 }
            (newSegmentOnDisk [] (((heapActive l).nextOffset + 1) % 2^64) l.config),
          .ok (heapActive l).nextOffset)
       else ({ l with heap := l.heap.set l.active (segAppend (heapActive l) r).1 },
          .ok (heapActive l).nextOffset)) := by
  unfold logAppend
  rw [heap_get?_active l hact]
  dsimp only
  rw [segAppend_ok _ _ hroom]

/-- `Log.Append` when the active segment's index is full: EOF, with the whole
frame already appended to the active segment's store. -/
theorem logAppend_of_noroom (l : LogSt) (r : Record)
    (hact : l.active < l.heap.length)
    (hnoroom : (heapActive l).index.mmap.length < (heapActive l).index.size + 12) :
    logAppend l r =
      ({ l with heap := l.heap.set l.active (segGrown (heapActive l) r) }, .error .eof) := by
  unfold logAppend
  rw [heap_get?_active l hact]
  dsimp only
  rw [segAppend_eof _ _ hnoroom]

/-! ### `Log.Read` congruence -/

theorem segGrown_baseOffset (s : Segment) (r : Record) :
    (segGrown s r).baseOffset = s.baseOffset := rfl

theorem segGrown_nextOffset (s : Segment) (r : Record) :
    (segGrown s r).nextOffset = s.nextOffset := rfl

theorem segGrown_index (s : Segment) (r : Record) :
    (segGrown s r).index = s.index := rfl

theorem heapSeg_update (l : LogSt) (hp : List Segment) (id : Nat) :
    heapSeg { l with heap := hp } id = hp.getD id ⟨⟨[], 0⟩, ⟨[], 0⟩, 0, 0⟩ := rfl

theorem heapSeg_def (l : LogSt) (id : Nat) :
    heapSeg l id = l.heap.getD id ⟨⟨[], 0⟩, ⟨[], 0⟩, 0, 0⟩ := rfl

theorem heapSeg_set_self (l : LogSt) (s' : Segment) (i : Nat) (h : i < l.heap.length) :
    heapSeg { l with heap := l.heap.set i s' } i = s' := by
  rw [heapSeg_update]
  exact getD_set_eq _ _ _ _ h

theorem heapSeg_set_other (l : LogSt) (s' : Segment) (i j : Nat) (h : i ≠ j) :
    heapSeg { l with heap := l.heap.set i s' } j = heapSeg l j := by
  rw [heapSeg_update, heapSeg_def]
  exact getD_set_ne _ _ _ _ _ h

/-- The match at the heart of `Log.Read` only depends on the segments'
covering intervals and their reads at covered offsets. -/
theorem find_read_congr (o : Nat) : ∀ (ids : List Nat) (f g : Nat → Segment),
    (∀ id ∈ ids,
      (f id).baseOffset = (g id).baseOffset ∧
      (f id).nextOffset = (g id).nextOffset ∧
      ((g id).baseOffset ≤ o → o < (g id).nextOffset → segRead (f id) o = segRead (g id) o)) →
    (match (ids.map f).find? (fun s => decide (s.baseOffset ≤ o) && decide (o < s.nextOffset)) with
     | none => Except.error (LogErr.offsetOutOfRange o)
     | some s => segRead s o) =
    (match (ids.map g).find? (fun s => decide (s.baseOffset ≤ o) && decide (o < s.nextOffset)) with
     | none => Except.error (LogErr.offsetOutOfRange o)
     | some s => segRead s o)
  | [], f, g, _ => rfl
  | id :: ids, f, g, h => by
      obtain ⟨hb, hn, hr⟩ := h id (by simp)
      by_cases hc : (g id).baseOffset ≤ o ∧ o < (g id).nextOffset
      · have hpf : (decide ((f id).baseOffset ≤ o) && decide (o < (f id).nextOffset)) = true := by
          rw [hb, hn]
          simpa using hc
        have hpg : (decide ((g id).baseOffset ≤ o) && decide (o < (g id).nextOffset)) = true := by
          simpa using hc
        rw [List.map_cons, List.map_cons, List.find?_cons, List.find?_cons]
        rw [hpf, hpg]
        exact hr hc.1 hc.2
      · have hpf : (decide ((f id).baseOffset ≤ o) && decide (o < (f id).nextOffset)) = false := by
          rw [hb, hn]
          simpa using hc
        have hpg : (decide ((g id).baseOffset ≤ o) && decide (o < (g id).nextOffset)) = false := by
          simpa using hc
        rw [List.map_cons, List.map_cons, List.find?_cons, List.find?_cons]
        rw [hpf, hpg]
        exact find_read_congr o ids f g (fun x hx => h x (by simp [hx]))

theorem logRead_congr (l l' : LogSt) (o : Nat)
    (hseg : l'.segments = l.segments)
    (hsim : ∀ id ∈ l.segments,
      (heapSeg l' id).baseOffset = (heapSeg l id).baseOffset ∧
      (heapSeg l' id).nextOffset = (heapSeg l id).nextOffset ∧
      ((heapSeg l id).baseOffset ≤ o → o < (heapSeg l id).nextOffset →
        segRead (heapSeg l' id) o = segRead (heapSeg l id) o)) :
    logRead l' o = logRead l o := by
  unfold logRead
  rw [hseg]
  exact find_read_congr o l.segments (heapSeg l') (heapSeg l) hsim

theorem lowestOffset_congr (l l' : LogSt)
    (hseg : l'.segments = l.segments)
    (hb : ∀ id, (heapSeg l' id).baseOffset = (heapSeg l id).baseOffset) :
    lowestOffset l' = lowestOffset l := by
  unfold lowestOffset
  rw [hseg]
  rcases l.segments.head? with _ | id
  · rfl
  · dsimp only
    rw [hb id]

theorem highestOffset_congr (l l' : LogSt)
    (hseg : l'.segments = l.segments)
    (hn : ∀ id, (heapSeg l' id).nextOffset = (heapSeg l id).nextOffset) :
    highestOffset l' = highestOffset l := by
  unfold highestOffset
  rw [hseg]
  rcases l.segments.getLast? with _ | id
  · rfl
  · dsimp only
    rw [hn id]

/-- Decomposition of a well-formed log's segment list around the active
segment (the last entry). -/
theorem LogWF.segments_decomp {l : LogSt} (h : LogWF l) :
    ∃ init : List Nat, l.segments = init ++ [l.active] ∧ l.active ∉ init ∧
      ∀ id ∈ init, (heapSeg l id).nextOffset ≤ (heapSeg l l.active).baseOffset := by
  rcases List.eq_nil_or_concat l.segments with hnil | ⟨init, b, hdec⟩
  · exact absurd hnil h.ne
  · rw [List.concat_eq_append] at hdec
    have hb : b = l.active := by
      have := h.activeLast
      rw [hdec] at this
      simp at this
      exact this
    subst hb
    refine ⟨init, hdec, ?_, ?_⟩
    · have hnd := h.idsNodup
      rw [hdec] at hnd
      intro hmem
      rcases List.nodup_append.mp hnd with ⟨_, _, hdisj⟩
      exact hdisj hmem (by simp)
    · have hord := h.ordered
      rw [hdec] at hord
      rcases List.pairwise_append.mp hord with ⟨_, _, hrel⟩
      intro id hid
      exact (hrel id hid l.active (by simp)).1

/-- Growing only the active segment's store leaves every `Log.Read` result
unchanged: covered offsets read the same frames, coverage itself is
untouched. -/
theorem logRead_grow_active (l : LogSt) (r : Record) (hwf : LogWF l) (o : Nat) :
    logRead { l with heap := l.heap.set l.active (segGrown (heapActive l) r) } o
      = logRead l o := by
  apply logRead_congr
  case hseg => rfl
  intro id hid
  by_cases hida : id = l.active
  · subst hida
    rw [heapSeg_set_self _ _ _ hwf.activeLt]
    refine ⟨rfl, rfl, ?_⟩
    intro h1 h2
    unfold segGrown
    exact segRead_store_grow l.config (heapActive l) _ _ o hwf.activeWF hwf.cfg.mib32 h1 h2
  · rw [heapSeg_set_other _ _ _ _ (fun hh => hida hh.symm)]
    exact ⟨rfl, rfl, fun _ _ => rfl⟩

/-- `Log.Reader` splits at the active (last) segment. -/
theorem logReader_decomp (l : LogSt) (init : List Nat)
    (hdec : l.segments = init ++ [l.active]) :
    logReader l = ((init.map fun id => (heapSeg l id).store.data).flatten)
      ++ (heapActive l).store.data := by
  unfold logReader
  rw [hdec, List.map_append]
  simp [heapActive]

/-- `Log.Read`'s scan returns the middle segment when everything before it
fails the covering test and the middle one passes it. -/
theorem find?_middle (f : Nat → Segment) (p : Segment → Bool) (init rest : List Nat) (a : Nat)
    (h1 : ∀ id ∈ init, p (f id) = false) (h2 : p (f a) = true) :
    (((init ++ [a] ++ rest).map f).find? p) = some (f a) := by
  have hinit : ∀ x ∈ init.map f, p x = false := by
    intro x hx
    obtain ⟨id, hid, hfx⟩ := List.mem_map.mp hx
    subst hfx
    exact h1 id hid
  rw [List.map_append, List.map_append, List.append_assoc,
    find?_append_none _ _ _ hinit]
  rw [List.map_singleton, List.singleton_append, List.find?_cons_of_pos _ h2]

/-! ### Fresh logs -/

theorem normalize_msb_pos (c : Config) : 0 < (normalizeConfig c).maxStoreBytes := by
  unfold normalizeConfig
  dsimp only
  split <;> omega

theorem normalize_mib_pos (c : Config) : 0 < (normalizeConfig c).maxIndexBytes := by
  unfold normalizeConfig
  dsimp only
  split <;> omega

theorem normalize_io (c : Config) :
    (normalizeConfig c).initialOffset = c.initialOffset := rfl

theorem normalize_idem (c : Config) :
    normalizeConfig (normalizeConfig c) = normalizeConfig c := by
  unfold normalizeConfig
  dsimp only
  by_cases h1 : c.maxStoreBytes = 0 <;> by_cases h2 : c.maxIndexBytes = 0 <;>
    simp [h1, h2]

/-- `NewLog` against an empty directory: a single fresh segment at
`InitialOffset`, the only entry of both the heap and the segment list. -/
theorem newLog_empty_eq (c : Config) :
    newLog [] c =
      ⟨normalizeConfig c,
       [newSegmentOnDisk [] (normalizeConfig c).initialOffset (normalizeConfig c)],
       [0], 0⟩ := rfl

/-- A fresh log (empty directory) satisfies the log invariant. -/
theorem logWF_newLog_empty (c : Config)
    (hmib : (normalizeConfig c).maxIndexBytes ≤ 12 * 2^32)
    (hio : c.initialOffset < 2^64) :
    LogWF (newLog [] c) := by
  rw [newLog_empty_eq]
  have hfresh := segWF_fresh (normalizeConfig c) (normalizeConfig c).initialOffset
    (by rw [normalize_io]; exact hio)
  constructor
  case cfg => exact ⟨hmib, normalize_msb_pos c, normalize_mib_pos c⟩
  case ne => simp
  case idsLt => intro id hid; simp at hid; simp [hid]
  case idsNodup => simp
  case activeLast => rfl
  case ordered => simp
  case segsWF =>
    intro id hid
    simp at hid
    subst hid
    exact hfresh

/-! ### Claims -/

/-- C4: `Log.Read(off)` fails with `OffsetOutOfRange` carrying `off` if and
only if no segment of the log satisfies `baseOffset ≤ off < nextOffset`; when
some segment covers `off`, `Read` delegates to that (first covering) segment
and does not return `OffsetOutOfRange`. -/
theorem c4_offset_out_of_range (l : LogSt) (off : Nat) :
    (logRead l off = .error (.offsetOutOfRange off) ↔
      ∀ id ∈ l.segments,
        ¬((heapSeg l id).baseOffset ≤ off ∧ off < (heapSeg l id).nextOffset)) ∧
    (∀ s : Segment, (l.segments.map (heapSeg l)).find?
        (fun s => decide (s.baseOffset ≤ off) && decide (off < s.nextOffset)) = some s →
      logRead l off = segRead s off ∧
        ∀ o' : Nat, logRead l off ≠ .error (.offsetOutOfRange o')) := by
  constructor
  · rcases hf : (l.segments.map (heapSeg l)).find?
        (fun s => decide (s.baseOffset ≤ off) && decide (off < s.nextOffset)) with _ | s
    · constructor
      · intro _ id hid
        have hnone := List.find?_eq_none.mp hf (heapSeg l id) (List.mem_map_of_mem _ hid)
        simpa using hnone
      · intro _
        unfold logRead
        rw [hf]
    · have hread : logRead l off = segRead s off := by
        unfold logRead
        rw [hf]
      constructor
      · intro hbad
        rw [hread] at hbad
        exact absurd (segRead_err_eof _ _ _ hbad) (by simp)
      · intro hall
        exfalso
        have hps := List.find?_some hf
        obtain ⟨id, hid, hseq⟩ := List.mem_map.mp (List.mem_of_find?_eq_some hf)
        apply hall id hid
        rw [hseq]
        simpa using hps
  · intro s hf
    have hread : logRead l off = segRead s off := by
      unfold logRead
      rw [hf]
    refine ⟨hread, ?_⟩
    intro o' hbad
    rw [hread] at hbad
    exact absurd (segRead_err_eof _ _ _ hbad) (by simp)

/-- Witness for C4: in a fresh log with one appended record, `Read(0)` is
delegated to the covering segment. -/
theorem c4_offset_out_of_range_witness :
    logRead (logAppend (newLog [] ⟨64, 24, 0⟩) ⟨[7], 0⟩).1 0
      = segRead (heapSeg (logAppend (newLog [] ⟨64, 24, 0⟩) ⟨[7], 0⟩).1 0) 0 :=
  ((c4_offset_out_of_range (logAppend (newLog [] ⟨64, 24, 0⟩) ⟨[7], 0⟩).1 0).2
    (heapSeg (logAppend (newLog [] ⟨64, 24, 0⟩) ⟨[7], 0⟩).1 0) (by decide)).1

/-- C5: if `Log.Append` returns an error, the logical state observed by
`Read`, `LowestOffset` and `HighestOffset` is unchanged: every read returns
the same result as before, the reported bounds are the same, and the active
segment's `nextOffset` has not advanced (only the active segment's store file
may have grown, by the already-written frame — the on-disk exception). -/
theorem c5_append_error_state_unchanged (l : LogSt) (r : Record) (l' : LogSt) (e : LogErr)
    (hwf : LogWF l) (happ : logAppend l r = (l', .error e)) :
    (∀ o, logRead l' o = logRead l o) ∧
    lowestOffset l' = lowestOffset l ∧
    highestOffset l' = highestOffset l ∧
    (heapActive l').nextOffset = (heapActive l).nextOffset := by
  by_cases hroom : (heapActive l).index.size + 12 ≤ (heapActive l).index.mmap.length
  · rw [logAppend_of_room l r hwf.activeLt hroom] at happ
    split at happ
    · exact absurd (congrArg Prod.snd happ) (by simp)
    · exact absurd (congrArg Prod.snd happ) (by simp)
  · rw [logAppend_of_noroom l r hwf.activeLt (by omega)] at happ
    have hl' : l' = { l with heap := l.heap.set l.active (segGrown (heapActive l) r) } :=
      (congrArg Prod.fst happ).symm
    subst hl'
    refine ⟨fun o => logRead_grow_active l r hwf o, ?_, ?_, ?_⟩
    · refine lowestOffset_congr _ _ rfl ?_
      intro id
      by_cases hida : id = l.active
      · subst hida
        rw [heapSeg_set_self _ _ _ hwf.activeLt]
        rfl
      · rw [heapSeg_set_other _ _ _ _ (fun hh => hida hh.symm)]
    · refine highestOffset_congr _ _ rfl ?_
      intro id
      by_cases hida : id = l.active
      · subst hida
        rw [heapSeg_set_self _ _ _ hwf.activeLt]
        rfl
      · rw [heapSeg_set_other _ _ _ _ (fun hh => hida hh.symm)]
    · show (heapSeg _ l.active).nextOffset = _
      rw [heapSeg_set_self _ _ _ hwf.activeLt]
      rfl

/-- Witness for C5: with `MaxIndexBytes = 5` the very first append fails
(no index slot), and the state is logically unchanged. -/
theorem c5_append_error_state_unchanged_witness :
    (∀ o, logRead (logAppend (newLog [] ⟨1024, 5, 0⟩) ⟨[1], 0⟩).1 o
        = logRead (newLog [] ⟨1024, 5, 0⟩) o) ∧
    lowestOffset (logAppend (newLog [] ⟨1024, 5, 0⟩) ⟨[1], 0⟩).1
      = lowestOffset (newLog [] ⟨1024, 5, 0⟩) ∧
    highestOffset (logAppend (newLog [] ⟨1024, 5, 0⟩) ⟨[1], 0⟩).1
      = highestOffset (newLog [] ⟨1024, 5, 0⟩) ∧
    (heapActive (logAppend (newLog [] ⟨1024, 5, 0⟩) ⟨[1], 0⟩).1).nextOffset
      = (heapActive (newLog [] ⟨1024, 5, 0⟩)).nextOffset :=
  c5_append_error_state_unchanged (newLog [] ⟨1024, 5, 0⟩) ⟨[1], 0⟩
    (logAppend (newLog [] ⟨1024, 5, 0⟩) ⟨[1], 0⟩).1 .eof
    (logWF_newLog_empty ⟨1024, 5, 0⟩ (by decide) (by decide))
    rfl

/-- C9: when the active segment's index has no free entry slot, `Append`
fails with EOF but only after the whole encoded frame has been appended to
the store: `store.size` advances by `8 + len(payload)` while `nextOffset` and
the index are unchanged, the orphan frame's bytes appear at the end of the
`Log.Reader()` byte stream, and no offset-based `Read` result changes (the
orphan is unreachable by offset, and stays so: later frames are written at
strictly larger positions). -/
theorem c9_orphan_frame (l : LogSt) (r : Record) (hwf : LogWF l)
    (hnoroom : (heapActive l).index.mmap.length < (heapActive l).index.size + 12) :
    logAppend l r
      = ({ l with heap := l.heap.set l.active (segGrown (heapActive l) r) }, .error .eof) ∧
    (segGrown (heapActive l) r).store.size
      = (heapActive l).store.size
        + (8 + (marshalRecord {r with offset := (heapActive l).nextOffset}).length) ∧
    (segGrown (heapActive l) r).nextOffset = (heapActive l).nextOffset ∧
    (segGrown (heapActive l) r).index = (heapActive l).index ∧
    logReader (logAppend l r).1
      = logReader l
        ++ (u64be (marshalRecord {r with offset := (heapActive l).nextOffset}).length
            ++ marshalRecord {r with offset := (heapActive l).nextOffset}) ∧
    (∀ o, logRead (logAppend l r).1 o = logRead l o) := by
  have happ := logAppend_of_noroom l r hwf.activeLt hnoroom
  obtain ⟨init, hdec, hnin, _⟩ := hwf.segments_decomp
  refine ⟨happ, rfl, rfl, rfl, ?_, ?_⟩
  · rw [happ]
    dsimp only
    rw [logReader_decomp { l with heap := l.heap.set l.active (segGrown (heapActive l) r) }
      init hdec]
    rw [logReader_decomp l init hdec]
    have hmap : init.map
        (fun id => (heapSeg { l with heap := l.heap.set l.active (segGrown (heapActive l) r) }
          id).store.data)
        = init.map (fun id => (heapSeg l id).store.data) := by
      apply List.map_congr_left
      intro id hid
      rw [heapSeg_set_other _ _ _ _ (fun hh => hnin (by rw [hh]; exact hid))]
    rw [hmap]
    have hAct : heapActive { l with heap := l.heap.set l.active (segGrown (heapActive l) r) }
        = segGrown (heapActive l) r :=
      heapSeg_set_self l _ _ hwf.activeLt
    rw [hAct]
    show _ ++ ((heapActive l).store.data ++ _) = _
    rw [List.append_assoc]
  · intro o
    rw [happ]
    exact logRead_grow_active l r hwf o

/-- Witness for C9: `MaxIndexBytes = 5` leaves no entry slot, so the first
append already exhibits the orphan frame. -/
theorem c9_orphan_frame_witness :
    logAppend (newLog [] ⟨1024, 5, 0⟩) ⟨[2], 0⟩
      = ({ newLog [] ⟨1024, 5, 0⟩ with
            heap := (newLog [] ⟨1024, 5, 0⟩).heap.set (newLog [] ⟨1024, 5, 0⟩).active
              (segGrown (heapActive (newLog [] ⟨1024, 5, 0⟩)) ⟨[2], 0⟩) },
         .error .eof) ∧
    (segGrown (heapActive (newLog [] ⟨1024, 5, 0⟩)) ⟨[2], 0⟩).store.size
      = (heapActive (newLog [] ⟨1024, 5, 0⟩)).store.size
        + (8 + (marshalRecord {Record.mk [2] 0 with
            offset := (heapActive (newLog [] ⟨1024, 5, 0⟩)).nextOffset}).length) ∧
    (segGrown (heapActive (newLog [] ⟨1024, 5, 0⟩)) ⟨[2], 0⟩).nextOffset
      = (heapActive (newLog [] ⟨1024, 5, 0⟩)).nextOffset ∧
    (segGrown (heapActive (newLog [] ⟨1024, 5, 0⟩)) ⟨[2], 0⟩).index
      = (heapActive (newLog [] ⟨1024, 5, 0⟩)).index ∧
    logReader (logAppend (newLog [] ⟨1024, 5, 0⟩) ⟨[2], 0⟩).1
      = logReader (newLog [] ⟨1024, 5, 0⟩)
        ++ (u64be (marshalRecord {Record.mk [2] 0 with
              offset := (heapActive (newLog [] ⟨1024, 5, 0⟩)).nextOffset}).length
            ++ marshalRecord {Record.mk [2] 0 with
              offset := (heapActive (newLog [] ⟨1024, 5, 0⟩)).nextOffset}) ∧
    (∀ o, logRead (logAppend (newLog [] ⟨1024, 5, 0⟩) ⟨[2], 0⟩).1 o
        = logRead (newLog [] ⟨1024, 5, 0⟩) o) :=
  c9_orphan_frame (newLog [] ⟨1024, 5, 0⟩) ⟨[2], 0⟩
    (logWF_newLog_empty ⟨1024, 5, 0⟩ (by decide) (by decide)) (by decide)

/-- `Log.Read` over explicitly given state components: the scan returns the
designated covering segment when everything before it fails the test. -/
theorem logRead_mk (c : Config) (hp : List Segment) (segs : List Nat) (a o : Nat)
    (init rest : List Nat) (acov : Nat)
    (hsegs : segs = init ++ [acov] ++ rest)
    (hfalse : ∀ id ∈ init,
      (decide ((hp.getD id ⟨⟨[], 0⟩, ⟨[], 0⟩, 0, 0⟩).baseOffset ≤ o)
        && decide (o < (hp.getD id ⟨⟨[], 0⟩, ⟨[], 0⟩, 0, 0⟩).nextOffset)) = false)
    (htrue : (decide ((hp.getD acov ⟨⟨[], 0⟩, ⟨[], 0⟩, 0, 0⟩).baseOffset ≤ o)
        && decide (o < (hp.getD acov ⟨⟨[], 0⟩, ⟨[], 0⟩, 0, 0⟩).nextOffset)) = true) :
    logRead ⟨c, hp, segs, a⟩ o = segRead (hp.getD acov ⟨⟨[], 0⟩, ⟨[], 0⟩, 0, 0⟩) o := by
  subst hsegs
  unfold logRead
  dsimp only
  have h1 : ∀ id ∈ init,
      (fun s => decide (s.baseOffset ≤ o) && decide (o < s.nextOffset))
        (heapSeg ⟨c, hp, init ++ [acov] ++ rest, a⟩ id) = false := by
    intro id hid
    exact hfalse id hid
  have h2 : (fun s => decide (s.baseOffset ≤ o) && decide (o < s.nextOffset))
      (heapSeg ⟨c, hp, init ++ [acov] ++ rest, a⟩ acov) = true := htrue
  rw [find?_middle _ _ init rest acov h1 h2]
  rfl

/-- C1 (amended): if `Log.Append(r)` succeeds and returns offset `o`, and the
successor `o + 1` still fits `uint64` (otherwise the cursor wraps:
`c1_append_read_roundtrip_counterexample`), then a subsequent `Log.Read(o)`
succeeds and returns a record whose `value` equals `r.value` and whose
`offset` equals `o`. -/
theorem c1_append_read_roundtrip (l : LogSt) (r : Record) (l' : LogSt) (o : Nat)
    (hwf : LogWF l) (hv : r.value.length + 8 < 2^64) (ho64 : o + 1 < 2^64)
    (happ : logAppend l r = (l', .ok o)) :
    logRead l' o = .ok ⟨r.value, o⟩ := by
  by_cases hroom : (heapActive l).index.size + 12 ≤ (heapActive l).index.mmap.length
  · rw [logAppend_of_room l r hwf.activeLt hroom] at happ
    have ho0 : (heapActive l).nextOffset = o := by
      have h2 := congrArg Prod.snd happ
      by_cases hm : segIsMaxed l.config (segAppend (heapActive l) r).1
      · rw [if_pos hm] at h2
        simpa using h2
      · rw [if_neg hm] at h2
        simpa using h2
    have hn64 : (heapActive l).nextOffset + 1 < 2^64 := by
      rw [ho0]
      exact ho64
    have hmod : ((heapActive l).nextOffset + 1) % 2^64 = (heapActive l).nextOffset + 1 :=
      Nat.mod_eq_of_lt hn64
    obtain ⟨init, hdec, hnin, hbound⟩ := hwf.segments_decomp
    have hbl : (heapSeg l l.active).baseOffset ≤ (heapSeg l l.active).nextOffset :=
      hwf.activeWF.baseLe
    have hSb : (segAppend (heapActive l) r).1.baseOffset = (heapActive l).baseOffset := by
      rw [segAppend_ok _ _ hroom]
    have hSn : (segAppend (heapActive l) r).1.nextOffset = (heapActive l).nextOffset + 1 := by
      rw [segAppend_ok _ _ hroom]
      exact hmod
    have hread : segRead (segAppend (heapActive l) r).1 (heapActive l).nextOffset
        = .ok ⟨r.value, (heapActive l).nextOffset⟩ :=
      segAppend_read_back l.config (heapActive l) r hwf.activeWF hwf.cfg.mib32 hroom hv
    have hfalse : ∀ hp : List Segment,
        (∀ id ∈ init, hp.getD id ⟨⟨[], 0⟩, ⟨[], 0⟩, 0, 0⟩ = heapSeg l id) →
        ∀ id ∈ init,
          (decide ((hp.getD id ⟨⟨[], 0⟩, ⟨[], 0⟩, 0, 0⟩).baseOffset ≤ (heapActive l).nextOffset)
            && decide ((heapActive l).nextOffset
                < (hp.getD id ⟨⟨[], 0⟩, ⟨[], 0⟩, 0, 0⟩).nextOffset)) = false := by
      intro hp hf id hid
      rw [hf id hid]
      have h1 : (heapSeg l id).nextOffset ≤ (heapSeg l l.active).baseOffset := hbound id hid
      have : ¬((heapSeg l id).baseOffset ≤ (heapActive l).nextOffset ∧
          (heapActive l).nextOffset < (heapSeg l id).nextOffset) := by
        rintro ⟨_, hc2⟩
        have hnb : (heapActive l).nextOffset = (heapSeg l l.active).nextOffset := rfl
        omega
      simpa using this
    have hinit_set : ∀ id ∈ init,
        (l.heap.set l.active (segAppend (heapActive l) r).1).getD id ⟨⟨[], 0⟩, ⟨[], 0⟩, 0, 0⟩
          = heapSeg l id := by
      intro id hid
      have hne : l.active ≠ id := fun hh => hnin (by rw [hh]; exact hid)
      exact getD_set_ne _ _ _ _ _ hne
    have hset_act :
        (l.heap.set l.active (segAppend (heapActive l) r).1).getD l.active
          ⟨⟨[], 0⟩, ⟨[], 0⟩, 0, 0⟩ = (segAppend (heapActive l) r).1 :=
      getD_set_eq _ _ _ _ hwf.activeLt
    have htrue : ∀ hp : List Segment,
        hp.getD l.active ⟨⟨[], 0⟩, ⟨[], 0⟩, 0, 0⟩ = (segAppend (heapActive l) r).1 →
        (decide ((hp.getD l.active ⟨⟨[], 0⟩, ⟨[], 0⟩, 0, 0⟩).baseOffset
            ≤ (heapActive l).nextOffset)
          && decide ((heapActive l).nextOffset
              < (hp.getD l.active ⟨⟨[], 0⟩, ⟨[], 0⟩, 0, 0⟩).nextOffset)) = true := by
      intro hp hf
      rw [hf, hSb, hSn]
      have : (heapActive l).baseOffset ≤ (heapActive l).nextOffset ∧
          (heapActive l).nextOffset < (heapActive l).nextOffset + 1 := ⟨hbl, by omega⟩
      simpa using this
    split at happ
    · -- rollover: a fresh segment was pushed after the (still covering) old active
      rw [Prod.mk.injEq] at happ
      obtain ⟨hl', ho⟩ := happ
      have ho' : (heapActive l).nextOffset = o := by simpa using ho
      rw [← hl', ← ho']
      show logRead ⟨l.config,
          (l.heap.set l.active (segAppend (heapActive l) r).1)
            ++ [newSegmentOnDisk [] (((heapActive l).nextOffset + 1) % 2^64) l.config],
          l.segments ++ [(l.heap.set l.active (segAppend (heapActive l) r).1).length],
          (l.heap.set l.active (segAppend (heapActive l) r).1).length⟩
          (heapActive l).nextOffset = _
      rw [hmod]
      have hgetd : ∀ id ∈ init ++ [l.active],
          ((l.heap.set l.active (segAppend (heapActive l) r).1)
            ++ [newSegmentOnDisk [] ((heapActive l).nextOffset + 1) l.config]).getD id
              ⟨⟨[], 0⟩, ⟨[], 0⟩, 0, 0⟩
          = (l.heap.set l.active (segAppend (heapActive l) r).1).getD id
              ⟨⟨[], 0⟩, ⟨[], 0⟩, 0, 0⟩ := by
        intro id hid
        have hlt : id < l.heap.length := hwf.idsLt id (by rw [hdec]; exact hid)
        exact getD_append_left _ _ _ _ (by rw [List.length_set]; exact hlt)
      rw [logRead_mk _ _ _ _ _ init
        [(l.heap.set l.active (segAppend (heapActive l) r).1).length] l.active
        (by rw [hdec])
        (by intro id hid
            rw [hgetd id (List.mem_append_left _ hid)]
            exact hfalse _ hinit_set id hid)
        (by rw [hgetd l.active (by simp)]
            exact htrue _ hset_act)]
      rw [hgetd l.active (by simp), hset_act]
      exact hread
    · -- no rollover: the mutated active segment is still the last
      rw [Prod.mk.injEq] at happ
      obtain ⟨hl', ho⟩ := happ
      have ho' : (heapActive l).nextOffset = o := by simpa using ho
      rw [← hl', ← ho']
      show logRead ⟨l.config, l.heap.set l.active (segAppend (heapActive l) r).1,
          l.segments, l.active⟩ (heapActive l).nextOffset = _
      rw [logRead_mk _ _ _ _ _ init [] l.active
        (by rw [hdec, List.append_nil])
        (fun id hid => hfalse _ hinit_set id hid)
        (htrue _ hset_act)]
      rw [hset_act]
      exact hread
  · rw [logAppend_of_noroom l r hwf.activeLt (by omega)] at happ
    exact absurd (congrArg Prod.snd happ) (by simp)

/-- Witness for C1: appending `[9, 9]` to a fresh log yields offset 0 and
reading offset 0 returns it. -/
theorem c1_append_read_roundtrip_witness :
    logRead (logAppend (newLog [] ⟨64, 24, 0⟩) ⟨[9, 9], 5⟩).1 0
      = .ok ⟨[9, 9], 0⟩ :=
  c1_append_read_roundtrip (newLog [] ⟨64, 24, 0⟩) ⟨[9, 9], 5⟩
    (logAppend (newLog [] ⟨64, 24, 0⟩) ⟨[9, 9], 5⟩).1 0
    (logWF_newLog_empty ⟨64, 24, 0⟩ (by decide) (by decide)) (by decide) (by decide) rfl

set_option maxRecDepth 40000 in
/-- Counterexample to C1 as stated: with `Segment.InitialOffset = 2^64 - 1`
(a legal `uint64` configuration value), the first `Append` succeeds and
returns `o = 2^64 - 1`, but the segment's `nextOffset++` wraps to 0, so the
subsequent `Read(o)` finds no covering segment and fails with
`OffsetOutOfRange` instead of returning the record. -/
theorem c1_append_read_roundtrip_counterexample :
    (logAppend (newLog [] ⟨1024, 36, 2^64 - 1⟩) ⟨[7], 0⟩).2 = .ok (2^64 - 1) ∧
    logRead (logAppend (newLog [] ⟨1024, 36, 2^64 - 1⟩) ⟨[7], 0⟩).1 (2^64 - 1)
      = .error (.offsetOutOfRange (2^64 - 1)) := by
  decide

/-! ### Offset sequencing -/

theorem runAppends_cons (l : LogSt) (r : Record) (rest : List Record) :
    runAppends l (r :: rest)
      = ((runAppends (logAppend l r).1 rest).1,
         (logAppend l r).2 :: (runAppends (logAppend l r).1 rest).2) := by
  rcases h : logAppend l r with ⟨l', res⟩
  rcases h2 : runAppends l' rest with ⟨l'', ress⟩
  show (match logAppend l r with
        | (a, b) =>
          match runAppends a rest with
          | (c, d) => (c, b :: d)) = _
  rw [h]
  dsimp only
  rw [h2]

theorem newSegmentOnDisk_empty_nextOffset (b : Nat) (c : Config) :
    (newSegmentOnDisk [] b c).nextOffset = b := by
  rw [newSegmentOnDisk_empty]

/-- Shape of a successful `Log.Append`: the returned offset is the active
segment's (pre-increment) `nextOffset`, the active pointer stays valid, and
the new active segment's cursor sits at `(n + 1) % 2^64` (one past the
assigned offset, wrapping as Go's `uint64` does). -/
theorem logAppend_ok_shape (l : LogSt) (r : Record) (l' : LogSt) (n : Nat)
    (hact : l.active < l.heap.length)
    (happ : logAppend l r = (l', .ok n)) :
    n = (heapActive l).nextOffset ∧ l'.active < l'.heap.length ∧
      (heapActive l').nextOffset = (n + 1) % 2^64 := by
  by_cases hroom : (heapActive l).index.size + 12 ≤ (heapActive l).index.mmap.length
  · have hSn : (segAppend (heapActive l) r).1.nextOffset
        = ((heapActive l).nextOffset + 1) % 2^64 := by
      rw [segAppend_ok _ _ hroom]
    rw [logAppend_of_room l r hact hroom] at happ
    split at happ
    · rw [Prod.mk.injEq] at happ
      obtain ⟨hl', ho⟩ := happ
      have hn : (heapActive l).nextOffset = n := by simpa using ho
      refine ⟨hn.symm, ?_, ?_⟩
      · rw [← hl']
        show (l.heap.set l.active (segAppend (heapActive l) r).1).length
            < ((l.heap.set l.active (segAppend (heapActive l) r).1)
                ++ [newSegmentOnDisk [] (((heapActive l).nextOffset + 1) % 2^64)
                      l.config]).length
        simp
      · rw [← hl', ← hn]
        show (((l.heap.set l.active (segAppend (heapActive l) r).1)
            ++ [newSegmentOnDisk [] (((heapActive l).nextOffset + 1) % 2^64)
                  l.config]).getD
              (l.heap.set l.active (segAppend (heapActive l) r).1).length
              ⟨⟨[], 0⟩, ⟨[], 0⟩, 0, 0⟩).nextOffset
            = ((heapActive l).nextOffset + 1) % 2^64
        rw [getD_append_len]
        exact newSegmentOnDisk_empty_nextOffset _ _
    · rw [Prod.mk.injEq] at happ
      obtain ⟨hl', ho⟩ := happ
      have hn : (heapActive l).nextOffset = n := by simpa using ho
      refine ⟨hn.symm, ?_, ?_⟩
      · rw [← hl']
        show l.active < (l.heap.set l.active _).length
        rw [List.length_set]
        exact hact
      · rw [← hl', ← hn]
        show (heapSeg { l with heap := l.heap.set l.active (segAppend (heapActive l) r).1 }
          l.active).nextOffset = _
        rw [heapSeg_set_self _ _ _ hact]
        exact hSn
  · rw [logAppend_of_noroom l r hact (by omega)] at happ
    exact absurd (congrArg Prod.snd happ) (by simp)

/-- When every `Append` of a run succeeds and the cursor cannot wrap over the
run (`nextOffset + |rs| ≤ 2^64`), the results are exactly the consecutive
offsets starting at the active segment's cursor. -/
theorem runAppends_offsets : ∀ (rs : List Record) (l : LogSt),
    l.active < l.heap.length →
    (heapActive l).nextOffset + rs.length ≤ 2^64 →
    allOk (runAppends l rs).2 →
    (runAppends l rs).2
      = (List.range' (heapActive l).nextOffset rs.length).map Except.ok
  | [], l, _, _, _ => rfl
  | r :: rest, l, hact, hbound, hall => by
      rw [runAppends_cons] at hall ⊢
      have hok : (logAppend l r).2.isOk = true := hall _ (by simp)
      have hn : ∃ n, (logAppend l r).2 = .ok n := by
        rcases he : (logAppend l r).2 with e | n
        · rw [he] at hok; exact absurd hok (by simp [Except.isOk, Except.toBool])
        · exact ⟨n, rfl⟩
      obtain ⟨n, hn⟩ := hn
      have hpair : logAppend l r = ((logAppend l r).1, .ok n) := by
        rw [← hn]
      obtain ⟨h1, h2, h3⟩ := logAppend_ok_shape l r (logAppend l r).1 n hact hpair
      have htail : allOk (runAppends (logAppend l r).1 rest).2 := by
        intro e he
        exact hall e (by simp [he])
      have ih : (heapActive (logAppend l r).1).nextOffset + rest.length ≤ 2^64 →
          (runAppends (logAppend l r).1 rest).2
            = (List.range' (heapActive (logAppend l r).1).nextOffset rest.length).map
                Except.ok :=
        fun hb => runAppends_offsets rest (logAppend l r).1 h2 hb htail
      rw [h1] at h3
      show (logAppend l r).2 :: (runAppends (logAppend l r).1 rest).2 = _
      rcases rest with _ | ⟨r2, rest2⟩
      · rw [hn, h1]
        rfl
      · have hn1 : (heapActive l).nextOffset + 1 < 2^64 := by
          simp only [List.length_cons] at hbound
          omega
        have h3' : (heapActive (logAppend l r).1).nextOffset
            = (heapActive l).nextOffset + 1 := by
          rw [h3]
          exact Nat.mod_eq_of_lt hn1
        rw [hn, ih (by
              rw [h3']
              simp only [List.length_cons] at hbound ⊢
              omega),
            h3', h1]
        rfl

theorem newLog_empty_active_lt (c : Config) :
    (newLog [] c).active < (newLog [] c).heap.length := by
  rw [newLog_empty_eq]
  simp

theorem newLog_empty_nextOffset (c : Config) :
    (heapActive (newLog [] c)).nextOffset = c.initialOffset := by
  rw [newLog_empty_eq]
  show (newSegmentOnDisk [] (normalizeConfig c).initialOffset (normalizeConfig c)).nextOffset = _
  rw [newSegmentOnDisk_empty_nextOffset, normalize_io]

/-- C2 (amended): for every sequence of successful `Append` calls on a log
opened against an empty directory with `Segment.InitialOffset = i0`, provided
the offsets cannot wrap over the run (`i0 + |rs| ≤ 2^64`; otherwise the
cursor wraps to 0 mid-run: `c2_offsets_sequential_counterexample`), the
returned offsets are exactly `i0, i0+1, i0+2, …` in call order (hence
strictly monotonically increasing). -/
theorem c2_offsets_sequential (c : Config) (rs : List Record)
    (hbound : c.initialOffset + rs.length ≤ 2^64)
    (hall : allOk (runAppends (newLog [] c) rs).2) :
    (runAppends (newLog [] c) rs).2
      = (List.range' c.initialOffset rs.length).map Except.ok := by
  have h1 := runAppends_offsets rs (newLog [] c) (newLog_empty_active_lt c)
    (by rw [newLog_empty_nextOffset]; exact hbound) hall
  rw [h1, newLog_empty_nextOffset]

/-- Witness for C2: three appends on a fresh log with `InitialOffset = 0`
return offsets 0, 1, 2. -/
theorem c2_offsets_sequential_witness :
    (runAppends (newLog [] ⟨64, 36, 0⟩) [⟨[1], 0⟩, ⟨[1], 0⟩, ⟨[1], 0⟩]).2
      = (List.range' 0 3).map Except.ok :=
  c2_offsets_sequential ⟨64, 36, 0⟩ [⟨[1], 0⟩, ⟨[1], 0⟩, ⟨[1], 0⟩]
    (by decide) (by unfold allOk; decide)

set_option maxRecDepth 40000 in
/-- Counterexample to C2 as stated: with `Segment.InitialOffset = 2^64 - 1`,
two appends both succeed but return `[2^64 - 1, 0]` — the cursor wraps — so
the results are neither `i0, i0 + 1, …` nor strictly monotone. -/
theorem c2_offsets_sequential_counterexample :
    allOk (runAppends (newLog [] ⟨1024, 36, 2^64 - 1⟩) [⟨[7], 0⟩, ⟨[7], 0⟩]).2 ∧
    (runAppends (newLog [] ⟨1024, 36, 2^64 - 1⟩) [⟨[7], 0⟩, ⟨[7], 0⟩]).2
      = [.ok (2^64 - 1), .ok 0] ∧
    (runAppends (newLog [] ⟨1024, 36, 2^64 - 1⟩) [⟨[7], 0⟩, ⟨[7], 0⟩]).2
      ≠ (List.range' (2^64 - 1) 2).map Except.ok := by
  refine ⟨by unfold allOk; decide, by decide, by decide⟩

/-- `Log.Read` fails with `OffsetOutOfRange` when no listed segment covers. -/
theorem logRead_none (l : LogSt) (o : Nat)
    (hfalse : ∀ id ∈ l.segments,
      (decide ((heapSeg l id).baseOffset ≤ o)
        && decide (o < (heapSeg l id).nextOffset)) = false) :
    logRead l o = .error (.offsetOutOfRange o) := by
  unfold logRead
  have hnone : (l.segments.map (heapSeg l)).find?
      (fun s => decide (s.baseOffset ≤ o) && decide (o < s.nextOffset)) = none := by
    apply List.find?_eq_none.mpr
    intro x hx
    obtain ⟨id, hid, hfx⟩ := List.mem_map.mp hx
    subst hfx
    intro hcon
    rw [hfalse id hid] at hcon
    cases hcon
  rw [hnone]

theorem newSegmentOnDisk_empty_baseOffset (b : Nat) (c : Config) :
    (newSegmentOnDisk [] b c).baseOffset = b := by
  rw [newSegmentOnDisk_empty]

/-- C10: `Truncate` modifies only the `segments` list, never the heap or the
`activeSegment` pointer; when it removes every segment, a subsequent `Append`
is still delegated to the removed (dangling) active segment and returns an
offset, while `Read` of that offset fails with `OffsetOutOfRange` because the
segment list is empty (rollover, if any, adds an empty segment whose base
equals its cursor, so it covers no offset). -/
theorem c10_truncate_dangling_active (l : LogSt) (k : Nat) :
    (logTruncate l k).heap = l.heap ∧ (logTruncate l k).active = l.active ∧
    ∀ r : Record, (logTruncate l k).segments = [] →
      l.active < l.heap.length →
      (heapActive l).index.size + 12 ≤ (heapActive l).index.mmap.length →
      ((logAppend (logTruncate l k) r).2 = .ok (heapActive l).nextOffset ∧
        logRead (logAppend (logTruncate l k) r).1 ((heapActive l).nextOffset)
          = .error (.offsetOutOfRange ((heapActive l).nextOffset))) := by
  refine ⟨rfl, rfl, ?_⟩
  intro r hempty hact hroom
  have hactT : (logTruncate l k).active < (logTruncate l k).heap.length := hact
  have hroomT : (heapActive (logTruncate l k)).index.size + 12
      ≤ (heapActive (logTruncate l k)).index.mmap.length := hroom
  have happ := logAppend_of_room (logTruncate l k) r hactT hroomT
  constructor
  · rw [happ]
    split <;> rfl
  · rw [happ]
    split
    · dsimp only
      apply logRead_none
      intro id hid
      have hid' : id ∈ (logTruncate l k).segments
          ++ [((logTruncate l k).heap.set (logTruncate l k).active
                (segAppend (heapActive (logTruncate l k)) r).1).length] := hid
      rw [hempty] at hid'
      simp at hid'
      subst hid'
      have hg : heapSeg (pushSegment
            ⟨(logTruncate l k).config,
             ((logTruncate l k).heap.set (logTruncate l k).active
               (segAppend (heapActive (logTruncate l k)) r).1),
             (logTruncate l k).segments, (logTruncate l k).active⟩
            (newSegmentOnDisk []
              (((heapActive (logTruncate l k)).nextOffset + 1) % 2^64)
              (logTruncate l k).config))
            ((logTruncate l k).heap.length)
          = newSegmentOnDisk []
              (((heapActive (logTruncate l k)).nextOffset + 1) % 2^64)
              (logTruncate l k).config := by
        have h0 := getD_append_len
          ((logTruncate l k).heap.set (logTruncate l k).active
            (segAppend (heapActive (logTruncate l k)) r).1)
          (newSegmentOnDisk []
            (((heapActive (logTruncate l k)).nextOffset + 1) % 2^64)
            (logTruncate l k).config)
          (⟨⟨[], 0⟩, ⟨[], 0⟩, 0, 0⟩ : Segment)
        rw [List.length_set] at h0
        exact h0
      rw [hg, newSegmentOnDisk_empty_baseOffset, newSegmentOnDisk_empty_nextOffset]
      have : ¬(((heapActive (logTruncate l k)).nextOffset + 1) % 2^64
            ≤ (heapActive l).nextOffset ∧
          (heapActive l).nextOffset
            < ((heapActive (logTruncate l k)).nextOffset + 1) % 2^64) := by
        omega
      simpa using this
    · dsimp only
      apply logRead_none
      intro id hid
      have hid' : id ∈ (logTruncate l k).segments := hid
      rw [hempty] at hid'
      simp at hid'

/-- Witness for C10: after one append at offset 0, `Truncate(0)` empties the
segment list; the next `Append` still succeeds (returning offset 1, assigned
by the dangling active segment) and `Read(1)` fails out-of-range. -/
theorem c10_truncate_dangling_active_witness :
    (logAppend (logTruncate (logAppend (newLog [] ⟨1024, 36, 0⟩) ⟨[1], 0⟩).1 0) ⟨[2], 0⟩).2
      = .ok (heapActive (logAppend (newLog [] ⟨1024, 36, 0⟩) ⟨[1], 0⟩).1).nextOffset ∧
    logRead
      (logAppend (logTruncate (logAppend (newLog [] ⟨1024, 36, 0⟩) ⟨[1], 0⟩).1 0) ⟨[2], 0⟩).1
      ((heapActive (logAppend (newLog [] ⟨1024, 36, 0⟩) ⟨[1], 0⟩).1).nextOffset)
      = .error (.offsetOutOfRange
          ((heapActive (logAppend (newLog [] ⟨1024, 36, 0⟩) ⟨[1], 0⟩).1).nextOffset)) :=
  (c10_truncate_dangling_active (logAppend (newLog [] ⟨1024, 36, 0⟩) ⟨[1], 0⟩).1 0).2.2
    ⟨[2], 0⟩ (by decide) (by decide) (by decide)

/-! ### Rollover -/

/-- `Log.Append` preserves the configuration. -/
theorem logAppend_config (l : LogSt) (r : Record) : (logAppend l r).1.config = l.config := by
  unfold logAppend
  rcases h : l.heap.get? l.active with _ | s
  · rfl
  · dsimp only
    rcases h2 : segAppend s r with ⟨s', res⟩
    dsimp only
    rcases res with e | off
    · rfl
    · dsimp only
      split <;> rfl

/-- Any two members of a pairwise-ordered list are equal or related one way. -/
theorem pairwise_mem_or {R : Nat → Nat → Prop} : ∀ (xs : List Nat), xs.Pairwise R →
    ∀ a ∈ xs, ∀ b ∈ xs, a = b ∨ R a b ∨ R b a
  | [], _, a, ha, _, _ => by simp at ha
  | x :: xs, h, a, ha, b, hb => by
      rcases List.mem_cons.mp ha with rfl | ha'
      · rcases List.mem_cons.mp hb with rfl | hb'
        · exact .inl rfl
        · exact .inr (.inl ((List.pairwise_cons.mp h).1 b hb'))
      · rcases List.mem_cons.mp hb with rfl | hb'
        · exact .inr (.inr ((List.pairwise_cons.mp h).1 a ha'))
        · exact pairwise_mem_or xs (List.pairwise_cons.mp h).2 a ha' b hb'

/-- Filtering out elements that anyway fail the search predicate does not
change the result of `find?` over the mapped list. -/
theorem find?_map_filter (f : Nat → Segment) (p : Segment → Bool) (q : Nat → Bool) :
    ∀ xs : List Nat, (∀ id ∈ xs, q id = false → p (f id) = false) →
    ((xs.filter q).map f).find? p = (xs.map f).find? p
  | [], _ => rfl
  | x :: xs, h => by
      by_cases hq : q x = true
      · rw [List.filter_cons_of_pos hq, List.map_cons, List.map_cons,
          List.find?_cons, List.find?_cons]
        cases hp : p (f x)
        · exact find?_map_filter f p q xs (fun id hid => h id (by simp [hid]))
        · rfl
      · have hq' : q x = false := by simpa using hq
        rw [List.filter_cons_of_neg hq, List.map_cons, List.find?_cons,
          h x (by simp) hq']
        exact find?_map_filter f p q xs (fun id hid => h id (by simp [hid]))

/-- Dropping segments that never cover `o` leaves `Log.Read o` unchanged. -/
theorem logRead_filter_eq (l : LogSt) (q : Nat → Bool) (o : Nat)
    (h : ∀ id ∈ l.segments, q id = false →
      (decide ((heapSeg l id).baseOffset ≤ o)
        && decide (o < (heapSeg l id).nextOffset)) = false) :
    logRead { l with segments := l.segments.filter q } o = logRead l o := by
  show (match ((l.segments.filter q).map (heapSeg l)).find?
      (fun s => decide (s.baseOffset ≤ o) && decide (o < s.nextOffset)) with
    | none => Except.error (LogErr.offsetOutOfRange o)
    | some s => segRead s o) = logRead l o
  rw [find?_map_filter (heapSeg l) _ q l.segments h]
  rfl

/-- C8 (amended): `Truncate(k)` removes exactly the segments with
`nextOffset ≤ (k + 1) % 2^64` — Go's wrapping `uint64` sum, so
`Truncate(2^64 - 1)` compares against 0 and removes nothing
(`c8_truncate_correct_counterexample`) — keeping the rest in order;
afterwards reads below the new `LowestOffset` fail with `OffsetOutOfRange`,
while every offset at or above it that was readable before still reads the
same record. -/
theorem c8_truncate_correct (l : LogSt) (k : Nat) (hwf : LogWF l) :
    (logTruncate l k).segments
      = l.segments.filter
          (fun id => !decide ((heapSeg l id).nextOffset ≤ (k + 1) % 2^64)) ∧
    ∀ lo : Nat, lowestOffset (logTruncate l k) = some lo →
      (∀ o, o < lo → logRead (logTruncate l k) o = .error (.offsetOutOfRange o)) ∧
      (∀ o rec, lo ≤ o → logRead l o = .ok rec →
        logRead (logTruncate l k) o = .ok rec) := by
  refine ⟨rfl, ?_⟩
  intro lo hlo
  set q : Nat → Bool :=
    fun id => !decide ((heapSeg l id).nextOffset ≤ (k + 1) % 2^64) with hq
  -- unpack the head of the filtered list
  have hkept : ∀ id ∈ l.segments.filter q,
      (heapSeg l id).nextOffset ≥ (k + 1) % 2^64 + 1 := by
    intro id hid
    have h2 := (List.mem_filter.mp hid).2
    rw [hq] at h2
    simp at h2
    omega
  have hmem : ∀ id ∈ l.segments.filter q, id ∈ l.segments :=
    fun id hid => (List.mem_filter.mp hid).1
  have hord : (l.segments.filter q).Pairwise (fun a b =>
      (heapSeg l a).nextOffset ≤ (heapSeg l b).baseOffset ∧
      (heapSeg l a).baseOffset < (heapSeg l b).baseOffset) :=
    hwf.ordered.sublist (List.filter_sublist l.segments)
  unfold lowestOffset at hlo
  rcases hh : (logTruncate l k).segments.head? with _ | id0
  · rw [hh] at hlo
    cases hlo
  · rw [hh] at hlo
    have hlo' : lo = (heapSeg l id0).baseOffset := by
      cases hlo
      rfl
    have hdec0 : ∃ t, l.segments.filter q = id0 :: t := by
      have : (l.segments.filter q).head? = some id0 := hh
      cases hlist : l.segments.filter q with
      | nil => rw [hlist] at this; cases this
      | cons x t =>
          rw [hlist] at this
          cases this
          exact ⟨t, rfl⟩
    obtain ⟨t0, ht0⟩ := hdec0
    have hid0mem : id0 ∈ l.segments.filter q := by rw [ht0]; simp
    -- every kept segment starts at or above lo
    have hbase_ge : ∀ id ∈ l.segments.filter q, lo ≤ (heapSeg l id).baseOffset := by
      intro id hid
      rw [ht0] at hid
      rcases List.mem_cons.mp hid with rfl | hid'
      · rw [hlo']
      · have hp := hord
        rw [ht0] at hp
        have := (List.pairwise_cons.mp hp).1 id hid'
        rw [hlo']
        omega
    constructor
    · -- reads below lo are out of range
      intro o ho
      apply logRead_none
      intro id hid
      have hge := hbase_ge id hid
      have : ¬((heapSeg l id).baseOffset ≤ o ∧ o < (heapSeg l id).nextOffset) := by
        rintro ⟨h1, _⟩
        omega
      simpa using this
    · -- reads at or above lo that existed before are preserved
      intro o rec ho hread
      have hconv : logRead (logTruncate l k) o = logRead l o := by
        apply logRead_filter_eq l q o
        intro id hid hqf
        -- removed segment: nextOffset ≤ k + 1
        have hrem : (heapSeg l id).nextOffset ≤ (k + 1) % 2^64 := by
          rw [hq] at hqf
          simpa using hqf
        have hk0 : (heapSeg l id0).nextOffset ≥ (k + 1) % 2^64 + 1 := hkept id0 hid0mem
        have hne : id ≠ id0 := by
          intro hcon
          subst hcon
          omega
        rcases pairwise_mem_or l.segments hwf.ordered id hid id0 (hmem id0 hid0mem) with
          hcon | ⟨h1, _⟩ | ⟨h1, _⟩
        · exact absurd hcon hne
        · -- id before id0: its range ends at or below lo
          have : ¬((heapSeg l id).baseOffset ≤ o ∧ o < (heapSeg l id).nextOffset) := by
            rintro ⟨_, h3⟩
            rw [hlo'] at ho
            omega
          simpa using this
        · -- id after id0: its range starts past k + 1, but it ends at k + 1
          have hb0 : (heapSeg l id0).nextOffset ≤ (heapSeg l id).baseOffset := h1
          have : ¬((heapSeg l id).baseOffset ≤ o ∧ o < (heapSeg l id).nextOffset) := by
            rintro ⟨h2, h3⟩
            omega
          simpa using this
      rw [hconv]
      exact hread

/-! ### Invariant preservation along successful appends -/

/-- The ordering invariant survives a replacement of the active (last)
segment that preserves its base offset. -/
theorem ordered_update_active (l : LogSt) (hwf : LogWF l) (f : Nat → Segment)
    (hold : ∀ id ∈ l.segments, id ≠ l.active → f id = heapSeg l id)
    (hact : (f l.active).baseOffset = (heapSeg l l.active).baseOffset) :
    l.segments.Pairwise (fun a b =>
      (f a).nextOffset ≤ (f b).baseOffset ∧ (f a).baseOffset < (f b).baseOffset) := by
  obtain ⟨init, hdec, hnin, _⟩ := hwf.segments_decomp
  have hord := hwf.ordered
  rw [hdec] at hord ⊢
  obtain ⟨hpInit, _, hrel⟩ := List.pairwise_append.mp hord
  apply List.pairwise_append.mpr
  refine ⟨?_, by simp, ?_⟩
  · apply hpInit.imp_of_mem
    intro a b ha hb hab
    have hfa : f a = heapSeg l a :=
      hold a (by rw [hdec]; exact List.mem_append_left _ ha)
        (fun hcon => hnin (by rw [← hcon]; exact ha))
    have hfb : f b = heapSeg l b :=
      hold b (by rw [hdec]; exact List.mem_append_left _ hb)
        (fun hcon => hnin (by rw [← hcon]; exact hb))
    rw [hfa, hfb]
    exact hab
  · intro a ha b hb
    have hb' : b = l.active := by simpa using hb
    subst hb'
    have hfa : f a = heapSeg l a :=
      hold a (by rw [hdec]; exact List.mem_append_left _ ha)
        (fun hcon => hnin (by rw [← hcon]; exact ha))
    have hab := hrel a ha l.active (by simp)
    rw [hfa, hact]
    exact hab

set_option maxRecDepth 40000 in
theorem c8_truncate_correct_witness :
    logRead (logTruncate
        ((runAppends (newLog [] ⟨32, 36, 0⟩) [⟨[7], 0⟩, ⟨[7], 0⟩, ⟨[7], 0⟩]).1) 1) 1
      = .error (.offsetOutOfRange 1) ∧
    logRead (logTruncate
        ((runAppends (newLog [] ⟨32, 36, 0⟩) [⟨[7], 0⟩, ⟨[7], 0⟩, ⟨[7], 0⟩]).1) 1) 2
      = .ok ⟨[7], 2⟩ := by
  have h := c8_truncate_correct
    ((runAppends (newLog [] ⟨32, 36, 0⟩) [⟨[7], 0⟩, ⟨[7], 0⟩, ⟨[7], 0⟩]).1) 1
    (logWFb_sound _ (by decide))
  obtain ⟨-, h2⟩ := h
  obtain ⟨ha, hb⟩ := h2 2 (by decide)
  exact ⟨ha 1 (by decide), hb 2 ⟨[7], 2⟩ (by decide) (by decide)⟩

set_option maxRecDepth 40000 in
/-- Counterexample to C8 as stated: `Truncate(2^64 - 1)` computes its removal
threshold with a wrapping `uint64` sum, `(2^64 - 1) + 1 = 0`, so although the
log's only segment has `nextOffset ≤ (2^64 - 1) + 1` in the plain arithmetic
of the claim, nothing is removed. -/
theorem c8_truncate_correct_counterexample :
    (logAppend (newLog [] ⟨1024, 36, 0⟩) ⟨[7], 0⟩).1.segments ≠ [] ∧
    (∀ id ∈ (logAppend (newLog [] ⟨1024, 36, 0⟩) ⟨[7], 0⟩).1.segments,
      (heapSeg (logAppend (newLog [] ⟨1024, 36, 0⟩) ⟨[7], 0⟩).1 id).nextOffset
        ≤ (2^64 - 1) + 1) ∧
    (logTruncate (logAppend (newLog [] ⟨1024, 36, 0⟩) ⟨[7], 0⟩).1 (2^64 - 1)).segments
      = (logAppend (newLog [] ⟨1024, 36, 0⟩) ⟨[7], 0⟩).1.segments := by
  refine ⟨by decide, ?_, by decide⟩
  decide

/-! ### `Log.setup`: the directory scan (C7) -/

theorem newSegmentOnDisk_baseOffset (disk : List DiskSeg) (b : Nat) (c : Config) :
    (newSegmentOnDisk disk b c).baseOffset = b := rfl

theorem foldl_push_heap (disk : List DiskSeg) (c : Config) (offs : List Nat)
    (l : LogSt) :
    (offs.foldl (fun acc b => pushSegment acc (newSegmentOnDisk disk b c)) l).heap
      = l.heap ++ offs.map (fun b => newSegmentOnDisk disk b c) := by
  induction offs generalizing l with
  | nil => simp
  | cons b rest ih =>
    show (rest.foldl _ (pushSegment l (newSegmentOnDisk disk b c))).heap = _
    rw [ih]
    unfold pushSegment
    simp

theorem foldl_push_segments (disk : List DiskSeg) (c : Config) (offs : List Nat)
    (l : LogSt) :
    (offs.foldl (fun acc b => pushSegment acc (newSegmentOnDisk disk b c)) l).segments
      = l.segments ++ List.range' l.heap.length offs.length := by
  induction offs generalizing l with
  | nil => simp
  | cons b rest ih =>
    show (rest.foldl _ (pushSegment l (newSegmentOnDisk disk b c))).segments = _
    rw [ih]
    unfold pushSegment
    dsimp only
    rw [List.length_append]
    show (l.segments ++ [l.heap.length]) ++ List.range' (l.heap.length + 1) rest.length
      = l.segments ++ (l.heap.length :: List.range' (l.heap.length + 1) rest.length)
    simp

theorem getD_append_cons (pre : List Segment) (x : Segment) (rest : List Segment)
    (d : Segment) :
    (pre ++ x :: rest).getD pre.length d = x := by
  induction pre with
  | nil => rfl
  | cons p ps ih =>
    show (p :: (ps ++ x :: rest)).getD (ps.length + 1) d = x
    rw [List.getD_cons_succ]
    exact ih

theorem map_getD_range' (f : Segment → Nat) (d : Segment) (xs : List Segment) :
    ∀ pre : List Segment,
      (List.range' pre.length xs.length).map (fun i => f ((pre ++ xs).getD i d))
        = xs.map f := by
  induction xs with
  | nil => intro pre; rfl
  | cons x rest ih =>
    intro pre
    show f ((pre ++ x :: rest).getD pre.length d)
        :: (List.range' (pre.length + 1) rest.length).map
            (fun i => f ((pre ++ x :: rest).getD i d))
      = f x :: rest.map f
    rw [getD_append_cons]
    have h2 := ih (pre ++ [x])
    rw [List.append_assoc] at h2
    rw [List.length_append] at h2
    simpa using h2

theorem sorted_flatMap_pair (xs : List Nat) (h : xs.Sorted (· ≤ ·)) :
    (xs.flatMap (fun b => [b, b])).Sorted (· ≤ ·) := by
  induction xs with
  | nil => simp
  | cons x rest ih =>
    rw [List.flatMap_cons]
    rcases List.pairwise_cons.mp h with ⟨hx, htail⟩
    apply List.pairwise_append.mpr
    refine ⟨by simp, ih htail, ?_⟩
    intro a ha b hb
    have ha' : a = x := by simpa using ha
    subst ha'
    rcases List.mem_flatMap.mp hb with ⟨y, hy, hby⟩
    have hb' : b = y := by simpa using hby
    subst hb'
    exact hx b hy

theorem insertionSort_flatMap_pair (xs : List Nat) :
    List.insertionSort (· ≤ ·) (xs.flatMap (fun b => [b, b]))
      = (List.insertionSort (· ≤ ·) xs).flatMap (fun b => [b, b]) := by
  have hperm : (List.insertionSort (· ≤ ·) (xs.flatMap (fun b => [b, b]))).Perm
      ((List.insertionSort (· ≤ ·) xs).flatMap (fun b => [b, b])) :=
    (List.perm_insertionSort _ _).trans
      (List.Perm.flatMap_right _ (List.perm_insertionSort (· ≤ ·) xs).symm)
  exact List.eq_of_perm_of_sorted hperm
    (List.sorted_insertionSort _ _)
    (sorted_flatMap_pair _ (List.sorted_insertionSort _ _))

theorem skipAlternate_flatMap_pair (xs : List Nat) :
    skipAlternate (xs.flatMap (fun b => [b, b])) = xs := by
  induction xs with
  | nil => rfl
  | cons x rest ih =>
    show skipAlternate (x :: x :: rest.flatMap (fun b => [b, b])) = x :: rest
    rw [skipAlternate, ih]

theorem setupOffsets_eq (disk : List DiskSeg) :
    setupOffsets disk = List.insertionSort (· ≤ ·) (disk.map DiskSeg.base) := by
  unfold setupOffsets
  have h1 : disk.flatMap (fun d => [d.base, d.base])
      = (disk.map DiskSeg.base).flatMap (fun b => [b, b]) := by
    induction disk with
    | nil => rfl
    | cons d rest ih => simp [List.flatMap_cons, ih]
  rw [h1, insertionSort_flatMap_pair, skipAlternate_flatMap_pair]

theorem newLog_bases (disk : List DiskSeg) (c : Config) :
    (newLog disk c).segments.map (fun id => (heapSeg (newLog disk c) id).baseOffset)
      = (if setupOffsets disk = [] then [(normalizeConfig c).initialOffset]
         else setupOffsets disk) := by
  by_cases h : setupOffsets disk = []
  · rw [if_pos h]
    unfold newLog
    dsimp only
    rw [h]
    show (pushSegment ⟨normalizeConfig c, [], [], 0⟩
        (newSegmentOnDisk disk (normalizeConfig c).initialOffset
          (normalizeConfig c))).segments.map _ = _
    unfold pushSegment heapSeg
    simp [newSegmentOnDisk_baseOffset]
  · rw [if_neg h]
    unfold newLog
    dsimp only
    have hheap := foldl_push_heap disk (normalizeConfig c) (setupOffsets disk)
      ⟨normalizeConfig c, [], [], 0⟩
    have hsegs := foldl_push_segments disk (normalizeConfig c) (setupOffsets disk)
      ⟨normalizeConfig c, [], [], 0⟩
    rw [List.nil_append] at hheap
    rw [List.nil_append] at hsegs
    rw [if_neg (by
      rw [Bool.not_eq_true, List.isEmpty_eq_false, hsegs, Ne, List.range'_eq_nil]
      simpa using fun hc => h (List.eq_nil_of_length_eq_zero hc))]
    rw [hsegs]
    simp only [heapSeg, hheap]
    have hmain := map_getD_range' Segment.baseOffset ⟨⟨[], 0⟩, ⟨[], 0⟩, 0, 0⟩
      ((setupOffsets disk).map (fun b => newSegmentOnDisk disk b (normalizeConfig c))) []
    rw [List.nil_append] at hmain
    show (List.range' 0 (setupOffsets disk).length).map _ = _
    rw [List.length_map] at hmain
    show (List.range' ([] : List Segment).length (setupOffsets disk).length).map _ = _
    rw [hmain, List.map_map]
    have : ∀ b ∈ setupOffsets disk,
        (Segment.baseOffset ∘ fun b => newSegmentOnDisk disk b (normalizeConfig c)) b
          = id b := fun b _ => rfl
    rw [List.map_congr_left this, List.map_id]

/-- C7: opening a log against a directory of segment-file pairs (one
`<base>.store`/`<base>.index` pair per distinct base) creates one segment per
base offset present, in strictly ascending base order; an empty directory
yields the single segment at `Segment.InitialOffset`. -/
theorem c7_setup_segments (disk : List DiskSeg) (c : Config)
    (hnd : (disk.map DiskSeg.base).Nodup) :
    ((newLog disk c).segments.map
        (fun id => (heapSeg (newLog disk c) id).baseOffset)).Pairwise (· < ·) ∧
    (disk = [] →
      (newLog disk c).segments.map (fun id => (heapSeg (newLog disk c) id).baseOffset)
        = [(normalizeConfig c).initialOffset]) ∧
    (disk ≠ [] →
      (newLog disk c).segments.map (fun id => (heapSeg (newLog disk c) id).baseOffset)
        = List.insertionSort (· ≤ ·) (disk.map DiskSeg.base)) := by
  have hbases := newLog_bases disk c
  have hsetup := setupOffsets_eq disk
  have hlen : (setupOffsets disk).length = disk.length := by
    rw [hsetup, (List.perm_insertionSort _ _).length_eq, List.length_map]
  refine ⟨?_, ?_, ?_⟩
  · rw [hbases]
    by_cases h : setupOffsets disk = []
    · rw [if_pos h]
      simp
    · rw [if_neg h, hsetup]
      have hs : (List.insertionSort (· ≤ ·) (disk.map DiskSeg.base)).Pairwise (· ≤ ·) :=
        List.sorted_insertionSort (· ≤ ·) (disk.map DiskSeg.base)
      have hn : (List.insertionSort (· ≤ ·) (disk.map DiskSeg.base)).Pairwise (· ≠ ·) :=
        ((List.perm_insertionSort (· ≤ ·) (disk.map DiskSeg.base)).nodup_iff).mpr hnd
      exact (List.Pairwise.and hs hn).imp (fun h => lt_of_le_of_ne h.1 h.2)
  · intro hd
    subst hd
    rw [hbases, if_pos (show setupOffsets ([] : List DiskSeg) = [] from rfl)]
  · intro hd
    have hne : setupOffsets disk ≠ [] := by
      intro hc
      have := congrArg List.length hc
      rw [hlen] at this
      exact hd (List.eq_nil_of_length_eq_zero this)
    rw [hbases, if_neg hne, hsetup]

set_option maxRecDepth 40000 in
theorem c7_setup_segments_witness :
    ((newLog [⟨5, [], []⟩, ⟨2, [], []⟩] ⟨32, 36, 0⟩).segments.map
        (fun id =>
          (heapSeg (newLog [⟨5, [], []⟩, ⟨2, [], []⟩] ⟨32, 36, 0⟩) id).baseOffset)).Pairwise
      (· < ·) ∧
    (newLog [⟨5, [], []⟩, ⟨2, [], []⟩] ⟨32, 36, 0⟩).segments.map
        (fun id => (heapSeg (newLog [⟨5, [], []⟩, ⟨2, [], []⟩] ⟨32, 36, 0⟩) id).baseOffset)
      = List.insertionSort (· ≤ ·)
          ([⟨5, [], []⟩, ⟨2, [], []⟩].map DiskSeg.base) := by
  have h := c7_setup_segments [⟨5, [], []⟩, ⟨2, [], []⟩] ⟨32, 36, 0⟩ (by decide)
  exact ⟨h.1, h.2.2 (by decide)⟩

/-! ### `Close` / reopen (C3): the directory determines the reopened state -/

theorem logSt_ext (x y : LogSt) (h1 : x.config = y.config) (h2 : x.heap = y.heap)
    (h3 : x.segments = y.segments) (h4 : x.active = y.active) : x = y := by
  cases x
  cases y
  congr 1

theorem foldl_push_config (disk : List DiskSeg) (c : Config) (offs : List Nat)
    (l : LogSt) :
    (offs.foldl (fun acc b => pushSegment acc (newSegmentOnDisk disk b c)) l).config
      = l.config := by
  induction offs generalizing l with
  | nil => rfl
  | cons b rest ih =>
    show (rest.foldl _ (pushSegment l (newSegmentOnDisk disk b c))).config = _
    rw [ih]
    rfl

theorem foldl_push_active (disk : List DiskSeg) (c : Config) (offs : List Nat)
    (l : LogSt) :
    (offs.foldl (fun acc b => pushSegment acc (newSegmentOnDisk disk b c)) l).active
      = if offs.isEmpty then l.active else l.heap.length + (offs.length - 1) := by
  induction offs generalizing l with
  | nil => rfl
  | cons b rest ih =>
    show (rest.foldl _ (pushSegment l (newSegmentOnDisk disk b c))).active = _
    rw [ih]
    cases rest with
    | nil => simp [pushSegment]
    | cons b2 rest2 =>
      simp [pushSegment]
      omega

theorem logCloseDisk_map_base (l : LogSt) :
    (logCloseDisk l).map DiskSeg.base
      = l.segments.map (fun id => (heapSeg l id).baseOffset) := by
  unfold logCloseDisk
  rw [List.map_map]
  rfl

theorem bases_pairwise_lt (l : LogSt) (hwf : LogWF l) :
    (l.segments.map (fun id => (heapSeg l id).baseOffset)).Pairwise (· < ·) := by
  rw [List.pairwise_map]
  exact hwf.ordered.imp (fun h => h.2)

theorem setupOffsets_closeDisk (l : LogSt) (hwf : LogWF l) :
    setupOffsets (logCloseDisk l)
      = l.segments.map (fun id => (heapSeg l id).baseOffset) := by
  rw [setupOffsets_eq, logCloseDisk_map_base]
  apply List.Sorted.insertionSort_eq
  exact (bases_pairwise_lt l hwf).imp (fun h => le_of_lt h)

theorem diskFind_mem (ds : List DiskSeg) (d : DiskSeg) (hmem : d ∈ ds)
    (hnd : (ds.map DiskSeg.base).Nodup) :
    diskFind ds d.base = some d := by
  induction ds with
  | nil => cases hmem
  | cons e rest ih =>
    unfold diskFind
    have hnd' : (∀ x ∈ rest, ¬ x.base = e.base) ∧ (rest.map DiskSeg.base).Nodup := by
      simpa using hnd
    rcases List.mem_cons.mp hmem with rfl | hmem'
    · rw [List.find?_cons_of_pos _ (by simp)]
    · by_cases he : e.base = d.base
      · exact absurd he.symm (hnd'.1 d hmem')
      · rw [List.find?_cons_of_neg _ (by simpa using he)]
        exact ih hmem' hnd'.2

theorem newSegmentOnDisk_reconstruct (disk : List DiskSeg) (c : Config) (s : Segment)
    (hswf : SegWF c s) (hmib : c.maxIndexBytes ≤ 12 * 2^32)
    (hfind : diskFind disk s.baseOffset
      = some ⟨s.baseOffset, s.store.data, s.index.mmap.take s.index.size⟩) :
    newSegmentOnDisk disk s.baseOffset c = s := by
  have hmmap : s.index.mmap.length = c.maxIndexBytes := hswf.mmapLen
  have hsle : s.index.size ≤ c.maxIndexBytes := hswf.idxLe
  have hlen_take : (s.index.mmap.take s.index.size).length = s.index.size := by
    rw [List.length_take]
    omega
  have hpad : padTo (s.index.mmap.take s.index.size) c.maxIndexBytes = s.index.mmap := by
    unfold padTo
    rw [hlen_take]
    rw [← hswf.tailZero, List.take_append_drop]
    rw [← hmmap, List.take_length]
  have hidx : (⟨padTo (s.index.mmap.take s.index.size) c.maxIndexBytes,
      (s.index.mmap.take s.index.size).length⟩ : Index) = s.index := by
    rw [hpad, hlen_take]
  have hstore : (⟨s.store.data, s.store.data.length⟩ : Store) = s.store := by
    rw [← hswf.sizeEq]
  unfold newSegmentOnDisk
  rw [hfind]
  dsimp only
  rw [hidx, hstore]
  have hnext : (match indexRead s.index u64neg1 with
      | .error _ => s.baseOffset
      | .ok (off, _) => s.baseOffset + off + 1) = s.nextOffset := by
    have hbl := hswf.baseLe
    have hisz := hswf.idxSize
    by_cases h0 : s.index.size = 0
    · rw [indexRead_empty _ _ h0]
      dsimp only
      omega
    · have hcnt : 0 < s.nextOffset - s.baseOffset := by omega
      have h32 : s.nextOffset - s.baseOffset ≤ 2^32 := hswf.cnt32 hmib
      rw [indexRead_last s.index (s.nextOffset - s.baseOffset) hisz hcnt h32]
      have hent := (hswf.entries (s.nextOffset - s.baseOffset - 1) (by omega)).1
      show s.baseOffset + (entryAt s.index (s.nextOffset - s.baseOffset - 1)).1 + 1
        = s.nextOffset
      rw [hent]
      omega
  rw [hnext]

theorem heap_reconstruct (l : LogSt) (hwf : LogWF l)
    (hrange : l.segments = List.range l.heap.length) (i : Nat)
    (hi : i < l.heap.length) :
    newSegmentOnDisk (logCloseDisk l) (heapSeg l i).baseOffset l.config
      = heapSeg l i := by
  have hmem : i ∈ l.segments := by
    rw [hrange]
    exact List.mem_range.mpr hi
  have hswf := hwf.segsWF i hmem
  apply newSegmentOnDisk_reconstruct _ _ _ hswf hwf.cfg.mib32
  have hnd : ((logCloseDisk l).map DiskSeg.base).Nodup := by
    rw [logCloseDisk_map_base]
    exact (bases_pairwise_lt l hwf).imp (fun h => ne_of_lt h)
  have hmem' : (⟨(heapSeg l i).baseOffset, (heapSeg l i).store.data,
      (heapSeg l i).index.mmap.take (heapSeg l i).index.size⟩ : DiskSeg)
      ∈ logCloseDisk l := by
    unfold logCloseDisk
    exact List.mem_map_of_mem _ hmem
  exact diskFind_mem (logCloseDisk l) _ hmem' hnd

theorem range'_map_eq (h : Nat → Segment) (d : Segment) (xs : List Segment) :
    ∀ pre : List Segment,
      (∀ i, i < pre.length + xs.length → pre.length ≤ i →
        h i = (pre ++ xs).getD i d) →
      (List.range' pre.length xs.length).map h = xs := by
  induction xs with
  | nil =>
    intro pre _
    rfl
  | cons x rest ih =>
    intro pre hp
    show h pre.length :: (List.range' (pre.length + 1) rest.length).map h = x :: rest
    have hx : h pre.length = x := by
      rw [hp pre.length (by simp only [List.length_cons]; omega) (Nat.le_refl _)]
      exact getD_append_cons pre x rest d
    have hcond : ∀ i, i < (pre ++ [x]).length + rest.length → (pre ++ [x]).length ≤ i →
        h i = ((pre ++ [x]) ++ rest).getD i d := by
      intro i h1 h2
      have hl : (pre ++ [x]).length = pre.length + 1 := by simp
      rw [hl] at h1 h2
      rw [List.append_assoc]
      exact hp i (by simp only [List.length_cons]; omega) (by omega)
    have hmain := ih (pre ++ [x]) hcond
    have hl : (pre ++ [x]).length = pre.length + 1 := by simp
    rw [hl] at hmain
    rw [hx, hmain]

theorem closeDisk_heap_reconstruct (l : LogSt) (hwf : LogWF l)
    (hrange : l.segments = List.range l.heap.length) :
    (l.segments.map (fun id => (heapSeg l id).baseOffset)).map
        (fun b => newSegmentOnDisk (logCloseDisk l) b l.config)
      = l.heap := by
  rw [List.map_map, hrange, List.range_eq_range']
  show (List.range' ([] : List Segment).length l.heap.length).map _ = l.heap
  apply range'_map_eq _ ⟨⟨[], 0⟩, ⟨[], 0⟩, 0, 0⟩ l.heap []
  intro i h1 _
  simp only [Function.comp_apply, List.nil_append]
  show newSegmentOnDisk (logCloseDisk l) ((heapSeg l i).baseOffset) l.config = heapSeg l i
  exact heap_reconstruct l hwf hrange i (by simpa using h1)

theorem newLog_closeDisk (l : LogSt) (c : Config) (hwf : LogWF l)
    (hc : normalizeConfig c = l.config)
    (hrange : l.segments = List.range l.heap.length) :
    newLog (logCloseDisk l) c = l := by
  have hn : l.segments.length = l.heap.length := by
    rw [hrange]
    exact List.length_range _
  have hnpos : 0 < l.heap.length := by
    have hne : l.segments.length ≠ 0 :=
      fun h => hwf.ne (List.eq_nil_of_length_eq_zero h)
    omega
  have hoffs := setupOffsets_closeDisk l hwf
  have hnB : (l.segments.map (fun id => (heapSeg l id).baseOffset)).length
      = l.heap.length := by
    rw [List.length_map]
    exact hn
  have hact : l.active = l.heap.length - 1 := by
    have hlast := hwf.activeLast
    rcases hnil : l.heap.length with _ | m
    · omega
    · rw [hrange, hnil, List.range_succ, List.getLast?_concat] at hlast
      injection hlast with hm
      omega
  have hBne : l.segments.map (fun id => (heapSeg l id).baseOffset) ≠ [] := by
    rw [Ne, List.map_eq_nil]
    exact hwf.ne
  have hh := foldl_push_heap (logCloseDisk l) l.config
    (l.segments.map (fun id => (heapSeg l id).baseOffset)) ⟨l.config, [], [], 0⟩
  have hs := foldl_push_segments (logCloseDisk l) l.config
    (l.segments.map (fun id => (heapSeg l id).baseOffset)) ⟨l.config, [], [], 0⟩
  have hcf := foldl_push_config (logCloseDisk l) l.config
    (l.segments.map (fun id => (heapSeg l id).baseOffset)) ⟨l.config, [], [], 0⟩
  have ha := foldl_push_active (logCloseDisk l) l.config
    (l.segments.map (fun id => (heapSeg l id).baseOffset)) ⟨l.config, [], [], 0⟩
  dsimp only at hh hs hcf ha
  rw [List.nil_append] at hh hs
  unfold newLog
  dsimp only
  rw [hc, hoffs]
  rw [if_neg (by
    rw [Bool.not_eq_true, List.isEmpty_eq_false, hs, Ne, List.range'_eq_nil]
    rw [hnB]
    omega)]
  apply logSt_ext
  · rw [hcf]
  · rw [hh]
    exact closeDisk_heap_reconstruct l hwf hrange
  · rw [hs]
    show List.range' ([] : List Segment).length _ = l.segments
    rw [hnB]
    show List.range' 0 l.heap.length = l.segments
    rw [← List.range_eq_range']
    exact hrange.symm
  · rw [ha]
    rw [if_neg (by simpa using hBne)]
    simp only [List.length_nil]
    rw [hnB]
    omega

/-- C3: a log whose state satisfies the reachable-state invariants (as every
log built by successful `Append`s does), once closed — flushing each store
file and truncating each index file to its used size — and reopened with the
same config against the resulting directory, is restored exactly: in
particular `LowestOffset`, `HighestOffset` and every previously successful
`Read` are unchanged. -/
theorem c3_persistence (l : LogSt) (c : Config) (hwf : LogWF l)
    (hc : normalizeConfig c = l.config)
    (hrange : l.segments = List.range l.heap.length) :
    newLog (logCloseDisk l) c = l ∧
    lowestOffset (newLog (logCloseDisk l) c) = lowestOffset l ∧
    highestOffset (newLog (logCloseDisk l) c) = highestOffset l ∧
    ∀ o r, logRead l o = .ok r → logRead (newLog (logCloseDisk l) c) o = .ok r := by
  have heq := newLog_closeDisk l c hwf hc hrange
  rw [heq]
  exact ⟨rfl, rfl, rfl, fun o r h => h⟩

set_option maxRecDepth 40000 in
theorem c3_persistence_witness :
    lowestOffset (newLog
        (logCloseDisk ((runAppends (newLog [] ⟨32, 36, 0⟩)
          [⟨[9], 0⟩, ⟨[9], 0⟩, ⟨[9], 0⟩]).1)) ⟨32, 36, 0⟩)
      = lowestOffset ((runAppends (newLog [] ⟨32, 36, 0⟩)
          [⟨[9], 0⟩, ⟨[9], 0⟩, ⟨[9], 0⟩]).1) ∧
    logRead (newLog
        (logCloseDisk ((runAppends (newLog [] ⟨32, 36, 0⟩)
          [⟨[9], 0⟩, ⟨[9], 0⟩, ⟨[9], 0⟩]).1)) ⟨32, 36, 0⟩) 1
      = .ok ⟨[9], 1⟩ := by
  have h := c3_persistence
    ((runAppends (newLog [] ⟨32, 36, 0⟩) [⟨[9], 0⟩, ⟨[9], 0⟩, ⟨[9], 0⟩]).1)
    ⟨32, 36, 0⟩ (logWFb_sound _ (by decide)) (by decide) (by decide)
  exact ⟨h.2.1, h.2.2.2 1 ⟨[9], 1⟩ (by decide)⟩

end Proglog
